import Mathlib

/-!
Verification of the evaluation engine of a fuzzy control system
(skfuzzy.control.controlsystem).

The development shallowly embeds the Python source:

* the rule network data model (variables, terms, rules) and the dependency
  graph built from it,
* the rule-order generator (RuleOrderGenerator: _init_state, _process_rules,
  _can_calc_rule),
* the simulation state (per-node stores keyed by simulation identity) and the
  operations ControlSystem.addrule, _InputAcceptor.__setitem__,
  ControlSystemSimulation.compute / compute_rule / _reset_simulation, and
  CrispValueCalculator.fuzz / find_memberships / defuzz.

Real numbers (numpy float64) are modelled by the rationals; the membership
curves are finite sample lists over a variable's universe, exactly as in the
source.  Python dict state keyed by object identity is modelled by
association lists keyed by integer identifiers.  A value of None stored in a
per-simulation map is modelled by the absence of the key (reads of both give
None in the source, and nothing else distinguishes them).  Array (numpy
broadcast) inputs are outside the model: every statement below assumes the
scalar input mode, and the array branches of the source are marked
explicitly.
-/

deriving instance DecidableEq for Except

namespace SkFuzzy

/-! ### Association-list utilities (model of Python dict state) -/

/-- Lookup in an association list (first binding wins, like reading a dict
that we always update by prepending). -/
def alookup {α β : Type} [DecidableEq α] : List (α × β) → α → Option β
  | [], _ => none
  | (k, v) :: rest, k' => if k = k' then some v else alookup rest k'

/-- Update a key (Python dict assignment). -/
def aset {α β : Type} [DecidableEq α] (m : List (α × β)) (k : α) (v : β) :
    List (α × β) :=
  (k, v) :: m

/-- Remove a key (Python storing None, modelled as deleting the key). -/
def aerase {α β : Type} [DecidableEq α] : List (α × β) → α → List (α × β)
  | [], _ => []
  | p :: rest, k => if p.1 = k then aerase rest k else p :: aerase rest k

/-- Keep only the keys satisfying a predicate (used to model clearing the
per-node state of all nodes of one network). -/
def afilterK {α β : Type} (m : List (α × β)) (p : α → Bool) : List (α × β) :=
  m.filter (fun q => p q.1)

/-! ### First-occurrence deduplication

NetworkX iterates graph nodes in insertion order; adding an already present
node is a no-op.  The node list of our graphs may contain repetitions, so
queries go through a first-occurrence deduplication. -/

/-- Deduplication worker: keep the elements not already seen, in order. -/
def firstDedupAux {α : Type} [DecidableEq α] : List α → List α → List α
  | [], _ => []
  | x :: xs, seen =>
    if x ∈ seen then firstDedupAux xs seen
    else x :: firstDedupAux xs (x :: seen)

/-- Deduplicate a list keeping the first occurrence of each element
(insertion order, as networkx node iteration does). -/
def firstDedup {α : Type} [DecidableEq α] (l : List α) : List α :=
  firstDedupAux l []

/-! ### Rational arithmetic

The field operations of ℚ in core Lean are irreducible for the kernel, so
witnesses could not evaluate them.  The embedding therefore computes with
the following operations, which reduce in the kernel; each is proved equal
to the corresponding field operation of ℚ (theorems qAdd_eq, qSub_eq,
qMul_eq, qDiv_eq below), so they ARE rational addition, subtraction,
multiplication and division. -/

/-- Rational addition, kernel-computable. -/
def qAdd (a b : ℚ) : ℚ := mkRat (a.num * b.den + b.num * a.den) (a.den * b.den)

/-- Rational subtraction, kernel-computable. -/
def qSub (a b : ℚ) : ℚ := mkRat (a.num * b.den - b.num * a.den) (a.den * b.den)

/-- Rational multiplication, kernel-computable. -/
def qMul (a b : ℚ) : ℚ := mkRat (a.num * b.num) (a.den * b.den)

/-- Rational division, kernel-computable. -/
def qDiv (a b : ℚ) : ℚ := Rat.divInt (a.num * b.den) (a.den * b.num)

/-! ### Rational list helpers (numpy operations used by the source) -/

/-- Maximum of a list of rationals (universe.max() in the source; the source
only calls it on nonempty universes). -/
def qMax : List ℚ → ℚ
  | [] => 0
  | x :: xs => xs.foldl max x

/-- Minimum of a list of rationals (universe.min()). -/
def qMin : List ℚ → ℚ
  | [] => 0
  | x :: xs => xs.foldl min x

/-- Insert a value into a sorted duplicate-free list, keeping it sorted and
duplicate free. -/
def sortedInsert (x : ℚ) : List ℚ → List ℚ
  | [] => [x]
  | y :: ys =>
    if x < y then x :: y :: ys
    else if x = y then y :: ys
    else y :: sortedInsert x ys

/-- Modelled from the spec: np.union1d (the fuzzymath helpers are not under
src/), the sorted duplicate-free union of two sample lists; "union these into
an extended universe shared by all terms". -/
def sortedUnion (a b : List ℚ) : List ℚ :=
  (a ++ b).foldl (fun acc x => sortedInsert x acc) []

/-- Modelled from the spec: piecewise-linear interpolation of a sampled
curve, zero outside the sampled range (interp_membership in
skfuzzy.fuzzymath.fuzzy_ops, not under src/; the spec: "compute its
membership via piecewise-linear interpolation of the term's sampled
membership function at value over the variable's universe"). -/
def interpPts (x : ℚ) : List (ℚ × ℚ) → ℚ
  | [] => 0
  | [(x0, y0)] => if x = x0 then y0 else 0
  | (x0, y0) :: (x1, y1) :: rest =>
    if x < x0 then 0
    else if x ≤ x1 then
      if x = x0 then y0
      else qAdd y0 (qDiv (qMul (qSub x x0) (qSub y1 y0)) (qSub x1 x0))
    else interpPts x ((x1, y1) :: rest)

/-- Modelled from the spec: the exact universe locations where a sampled
curve crosses a cut level (_interp_universe_fast in
skfuzzy.fuzzymath.fuzzy_ops, not under src/; the spec: "compute the exact
universe locations where the term's curve crosses the cut level").  A
crossing strictly between two consecutive samples is solved linearly;
touching a sample point exactly adds no location outside the universe, so it
is omitted (the union with the universe is unchanged either way). -/
def crossings (c : ℚ) : List (ℚ × ℚ) → List ℚ
  | (x0, y0) :: (x1, y1) :: rest =>
    (if (y0 < c ∧ c < y1) ∨ (y1 < c ∧ c < y0)
      then [qAdd x0 (qDiv (qMul (qSub c y0) (qSub x1 x0)) (qSub y1 y0))] else [])
      ++ crossings c ((x1, y1) :: rest)
  | _ => []

/-- Pointwise interpolation of a sampled membership curve over a universe
(interp_membership applied to one query point). -/
def interpMf (xs mf : List ℚ) (x : ℚ) : ℚ :=
  interpPts x (xs.zip mf)

/-! ### Rule network data model

Modelled from the spec where the defining files are not under src/
(fuzzyvariable.py, term.py, rule.py): a Variable owns a universe and labelled
Terms (spec section 3); a Rule has a label, an antecedent expression tree
over terms with AND/OR/NOT combinators, and a list of weighted consequent
terms (spec section 3).  Identities of Python objects are modelled by
integer identifiers (vid, tid, rule label). -/

/-- A linguistic term: identifier, label, and its membership curve sampled
over the owning variable's universe. -/
structure FTerm where
  tid : Nat
  lbl : String
  mf : List ℚ
deriving DecidableEq

/-- A fuzzy variable.  The control API exposes exactly Antecedent and
Consequent variables; `antecedent = false` is a Consequent (intermediaries in
the source are Consequents read by a later rule). -/
structure FVar where
  vid : Nat
  lbl : String
  antecedent : Bool
  univ : List ℚ
  terms : List FTerm
deriving DecidableEq

/-- Antecedent expression tree (TermAggregate in the source): leaves are
term references, internal nodes fuzzy AND/OR/NOT. -/
inductive AntExpr where
  | term (t : Nat)
  | and (a b : AntExpr)
  | or (a b : AntExpr)
  | not (a : AntExpr)
deriving DecidableEq

/-- A weighted consequent term of a rule. -/
structure WeightedTerm where
  term : Nat
  weight : ℚ
deriving DecidableEq

/-- A fuzzy rule. -/
structure FRule where
  label : Nat
  ant : AntExpr
  cons : List WeightedTerm
deriving DecidableEq

/-- A rule network: the variable catalogue and the rules added to the
control system, in insertion order. -/
structure Network where
  vars : List FVar
  rules : List FRule
deriving DecidableEq

/-- Leaves of an antecedent expression tree (Rule.antecedent_terms in the
source). -/
def antLeaves : AntExpr → List Nat
  | .term t => [t]
  | .and a b => antLeaves a ++ antLeaves b
  | .or a b => antLeaves a ++ antLeaves b
  | .not a => antLeaves a

/-- Term identifiers written by a rule (its consequent terms). -/
def writes (r : FRule) : List Nat := r.cons.map (·.term)

/-- All term identifiers referenced by a rule. -/
def touched (r : FRule) : List Nat := antLeaves r.ant ++ writes r

/-- The variable owning a given term (Term.parent in the source). -/
def termParent (net : Network) (t : Nat) : Option FVar :=
  net.vars.find? (fun v => v.terms.any (fun ft => ft.tid = t))

/-- Whether a term belongs to an Antecedent variable. -/
def isAntTerm (net : Network) (t : Nat) : Bool :=
  match termParent net t with
  | some v => v.antecedent
  | none => false

/-- The rules of the network that write to a given term. -/
def writersOf (net : Network) (t : Nat) : List FRule :=
  net.rules.filter (fun r => (writes r).contains t)

/-! ### The dependency graph

Modelled from the spec for the edge structure contributed by each rule
(rule.py is not under src/): "each antecedent-tree leaf term → rule
(predecessor), and rule → each consequent term (successor)" (spec section 3),
together with an edge from each referenced variable to every one of its
terms — RuleOrderGenerator._init_state (which is under src/) seeds the
calculated graph with exactly such variable → term edges for the Antecedent
variables, and _can_calc_rule compares predecessor degrees between the two
graphs, which requires the full graph to carry the same parent edges. -/

/-- A node of the dependency graph: a variable, a term, or a rule.
Python object identity is modelled by the identifier (resp. the whole rule,
whose label is unique in a well-formed network). -/
inductive GNode where
  | var (vid : Nat)
  | term (tid : Nat)
  | rule (r : FRule)
deriving DecidableEq

/-- A directed graph as plain node and edge lists; queries deduplicate, so
repetitions are harmless (networkx node/edge sets). -/
structure Graph where
  nodes : List GNode
  edges : List (GNode × GNode)

/-- Graph union (nx.compose). -/
def composeG (g1 g2 : Graph) : Graph :=
  ⟨g1.nodes ++ g2.nodes, g1.edges ++ g2.edges⟩

/-- The star of a variable: edges from the variable to each of its terms
(FuzzyVariable.graph in the source). -/
def varGraph (v : FVar) : Graph :=
  ⟨GNode.var v.vid :: v.terms.map (fun ft => GNode.term ft.tid),
    v.terms.map (fun ft => (GNode.var v.vid, GNode.term ft.tid))⟩

/-- The star of the variable owning a term (term.parent.graph). -/
def parentGraph (net : Network) (t : Nat) : Graph :=
  match termParent net t with
  | some v => varGraph v
  | none => ⟨[], []⟩

/-- The dependency subgraph contributed by one rule (Rule.graph): an edge
from each antecedent leaf term to the rule, an edge from the rule to each
consequent term, and the star of every referenced variable. -/
def ruleGraph (net : Network) (r : FRule) : Graph :=
  ⟨(antLeaves r.ant).map GNode.term ++ GNode.rule r :: (writes r).map GNode.term
      ++ (touched r).flatMap (fun t => (parentGraph net t).nodes),
    (antLeaves r.ant).map (fun t => (GNode.term t, GNode.rule r))
      ++ (writes r).map (fun t => (GNode.rule r, GNode.term t))
      ++ (touched r).flatMap (fun t => (parentGraph net t).edges)⟩

/-- The whole system graph: the composition of every added rule's subgraph,
in insertion order (ControlSystem.addrule composes them one by one). -/
def systemGraph (net : Network) : Graph :=
  net.rules.foldl (fun g r => composeG g (ruleGraph net r)) ⟨[], []⟩

/-- The Antecedent variables present in the system graph, in node insertion
order (ControlSystem.antecedents). -/
def graphAntecedents (net : Network) : List FVar :=
  (firstDedup (systemGraph net).nodes).filterMap (fun n =>
    match n with
    | .var vid =>
      match net.vars.find? (fun v => v.vid = vid) with
      | some v => if v.antecedent then some v else none
      | none => none
    | _ => none)

/-- The Consequent variables present in the system graph, in node insertion
order (ControlSystem.consequents). -/
def graphConsequents (net : Network) : List FVar :=
  (firstDedup (systemGraph net).nodes).filterMap (fun n =>
    match n with
    | .var vid =>
      match net.vars.find? (fun v => v.vid = vid) with
      | some v => if v.antecedent then none else some v
      | none => none
    | _ => none)

/-- The rule nodes of the system graph in insertion order
(RuleOrderGenerator._init_state building all_rules). -/
def allRules (net : Network) : List FRule :=
  (firstDedup (systemGraph net).nodes).filterMap (fun n =>
    match n with
    | .rule r => some r
    | _ => none)

/-- The initial calculated graph: a variable → term edge for every term of
every Antecedent variable (RuleOrderGenerator._init_state). -/
def initCalced (net : Network) : Graph :=
  ⟨(graphAntecedents net).flatMap
      (fun a => GNode.var a.vid :: a.terms.map (fun ft => GNode.term ft.tid)),
    (graphAntecedents net).flatMap
      (fun a => a.terms.map (fun ft => (GNode.var a.vid, GNode.term ft.tid)))⟩

/-! ### The order generator (RuleOrderGenerator) -/

/-- The distinct predecessors of a node present in a graph. -/
def predsIn (g : Graph) (p : GNode) : List GNode :=
  (firstDedup g.nodes).filter (fun q => (q, p) ∈ g.edges)

/-- The number of distinct predecessors (len(graph.predecessors(p))). -/
def predCount (g : Graph) (p : GNode) : Nat :=
  (predsIn g p).length

/-- RuleOrderGenerator._can_calc_rule: every predecessor term of the rule
must already be in the calculated graph with the same predecessor degree as
in the full graph. -/
def canCalc (net : Network) (allG calced : Graph) (r : FRule) : Bool :=
  (predsIn allG (GNode.rule r)).all
    (fun p => calced.nodes.contains p && (predCount allG p = predCount calced p))

/-- One scan of _process_rules' while loop over the remaining rules:
returns (yielded in order, skipped in order, final calculated graph). -/
def processPass (net : Network) (allG : Graph) :
    List FRule → Graph → List FRule × List FRule × Graph
  | [], calced => ([], [], calced)
  | r :: rs, calced =>
    if canCalc net allG calced r then
      let res := processPass net allG rs (composeG calced (ruleGraph net r))
      (r :: res.1, res.2.1, res.2.2)
    else
      let res := processPass net allG rs calced
      (res.1, r :: res.2.1, res.2.2)

/-- The error message of the RuntimeError raised on an unresolvable order. -/
def cyclicMsg : String :=
  "Unable to resolve rule execution order. The most likely reason is two or more rules that depend on each other.\nPlease check the rule graph for loops."

/-- RuleOrderGenerator._process_rules: repeatedly scan the remaining rules,
yielding the calculable ones; if a whole scan yields nothing while rules
remain, raise the RuntimeError; otherwise recurse over the skipped rules.
The fuel argument only bounds the recursion depth so that the definition is
structural: every scan that makes progress strictly shrinks the rule list,
so with fuel greater than the number of rules the fuel case is never
reached (proved below). -/
def processRules (net : Network) (allG : Graph) :
    Nat → List FRule → Graph → Except String (List FRule)
  | 0, _, _ => .error cyclicMsg
  | fuel + 1, rules, calced =>
    if (processPass net allG rules calced).2.1.isEmpty then
      .ok (processPass net allG rules calced).1
    else if (processPass net allG rules calced).2.1.length = rules.length then
      .error cyclicMsg
    else
      match processRules net allG fuel (processPass net allG rules calced).2.1
          (processPass net allG rules calced).2.2 with
      | .ok rest => .ok ((processPass net allG rules calced).1 ++ rest)
      | .error e => .error e

/-- The rule evaluation order of the whole network
(iterating ControlSystem.rules / RuleOrderGenerator). -/
def ruleOrder (net : Network) : Except String (List FRule) :=
  processRules net (systemGraph net) ((allRules net).length + 1) (allRules net)
    (initCalced net)

/-! ### ControlSystem.addrule -/

/-- The first label that appears twice in a scan of the given labels
(the duplicate-detection loop of ControlSystem.addrule). -/
def firstDupLabel : List Nat → List Nat → Option Nat
  | [], _ => none
  | l :: rest, seen =>
    if seen.contains l then some l else firstDupLabel rest (l :: seen)

/-- ControlSystem.addrule: iterate the EXISTING rules of the system (through
the order generator) looking for a duplicated label among them, then compose
the new rule's subgraph into the system graph.  Note the scan never consults
the label of the rule being added. -/
def addrule (net : Network) (r : FRule) : Except String Network :=
  match ruleOrder net with
  | .error e => .error e
  | .ok existing =>
    match firstDupLabel (existing.map (·.label)) [] with
    | some l =>
      .error ("Input rule cannot have same label, '" ++ toString l
        ++ "', as any other rule.")
    | none => .ok ⟨net.vars, net.rules ++ [r]⟩

/-! ### Simulation state

The source stores per-simulation values in dicts that live on the shared
network nodes (term.membership_value, term.cuts, rule.aggregate_firing,
weighted-term activation, consequent.output, antecedent.input), keyed by the
simulation object.  SimState is the union of those shared stores, keyed by
(node identifier, simulation identifier); SimLocal is the state owned by one
ControlSystemSimulation object itself. -/

/-- An input value: a crisp number or a term label. -/
inductive InVal where
  | num (x : ℚ)
  | lbl (s : String)
deriving DecidableEq

/-- The fingerprint of the current inputs (_update_unique_id): the ordered
snapshot of every Antecedent's current input.  The source hashes the repr of
this OrderedDict; the snapshot itself is the idealised (collision-free)
hash. -/
abbrev UID := List (String × Option InVal)

/-- The shared per-node stores, keyed by simulation identifier
(the second/last Nat of each key).  The inputCurrent store models the
special shared 'current' slot of antecedent.input. -/
structure SimState where
  inputCurrent : List (Nat × InVal)
  inputSim : List ((Nat × Nat) × InVal)
  memb : List ((Nat × Nat) × ℚ)
  cuts : List ((Nat × Nat × Nat) × ℚ)
  firing : List ((Nat × Nat) × ℚ)
  activ : List ((Nat × Nat × Nat) × ℚ)
  consOut : List ((Nat × Nat) × ℚ)
deriving DecidableEq

/-- The state owned by one ControlSystemSimulation object. -/
structure SimLocal where
  out : List (String × Option ℚ)
  calculated : List UID
  run : Nat
  cache : Bool
  arrayInputs : Bool
  clipToBounds : Bool
  flushAfterRun : Nat
  uniqueId : UID
deriving DecidableEq

/-- The identifiers of the terms of the Antecedent variables. -/
def netAntTids (net : Network) : List Nat :=
  (graphAntecedents net).flatMap (fun v => v.terms.map (·.tid))

/-- The identifiers of the terms of the Consequent variables. -/
def netConsTids (net : Network) : List Nat :=
  (graphConsequents net).flatMap (fun v => v.terms.map (·.tid))

/-- The labels of all rules in the system graph. -/
def netRuleLabels (net : Network) : List Nat :=
  (allRules net).map (·.label)

/-- ControlSystemSimulation._reset_simulation: clear() every shared store of
every node of this network — for ALL simulations keyed in them — and reset
the local bookkeeping.  (The source iterates the rule order generator; the
set of nodes visited is the same.) -/
def resetSim (net : Network) (sh : SimState) (loc : SimLocal) :
    SimState × SimLocal :=
  let rl := netRuleLabels net
  let ct := netConsTids net
  let an := netAntTids net
  let cv := (graphConsequents net).map (·.vid)
  let av := (graphAntecedents net).map (·.vid)
  (⟨afilterK sh.inputCurrent (fun k => !av.contains k),
    afilterK sh.inputSim (fun k => !av.contains k.1),
    afilterK sh.memb (fun k => !(ct.contains k.1 || an.contains k.1)),
    afilterK sh.cuts (fun k => !(ct.contains k.1 || an.contains k.1)),
    afilterK sh.firing (fun k => !rl.contains k.1),
    afilterK sh.activ (fun k => !rl.contains k.1),
    afilterK sh.consOut (fun k => !cv.contains k.1)⟩,
   { loc with calculated := [], run := 0 })

/-- ControlSystemSimulation._clear_outputs: like _reset_simulation but the
Antecedent inputs and term memberships are kept. -/
def clearOutputs (net : Network) (sh : SimState) (loc : SimLocal) :
    SimState × SimLocal :=
  let rl := netRuleLabels net
  let ct := netConsTids net
  let cv := (graphConsequents net).map (·.vid)
  (⟨sh.inputCurrent,
    sh.inputSim,
    afilterK sh.memb (fun k => !ct.contains k.1),
    afilterK sh.cuts (fun k => !ct.contains k.1),
    afilterK sh.firing (fun k => !rl.contains k.1),
    afilterK sh.activ (fun k => !rl.contains k.1),
    afilterK sh.consOut (fun k => !cv.contains k.1)⟩,
   { loc with calculated := [], run := 0 })

/-- ControlSystemSimulation._update_unique_id: refresh the input fingerprint
(only while no array inputs were seen). -/
def computeUID (net : Network) (sh : SimState) : UID :=
  (graphAntecedents net).map (fun a => (a.lbl, alookup sh.inputCurrent a.vid))

/-- Fingerprint refresh on the simulation object. -/
def updateUniqueId (net : Network) (sh : SimState) (loc : SimLocal) : SimLocal :=
  if loc.arrayInputs then loc else { loc with uniqueId := computeUID net sh }

/-- One step of _update_to_current: copy one Antecedent's shared 'current'
slot into this simulation's keyed slot. -/
def utcStep (s : Nat) (a : SimState) (v : FVar) : SimState :=
  match alookup a.inputCurrent v.vid with
  | some w => { a with inputSim := aset a.inputSim (v.vid, s) w }
  | none => { a with inputSim := aerase a.inputSim (v.vid, s) }

/-- _InputAcceptor._update_to_current: copy the shared 'current' input slot
of every Antecedent into this simulation's keyed slot. -/
def updateToCurrent (net : Network) (s : Nat) (sh : SimState) : SimState :=
  (graphAntecedents net).foldl (utcStep s) sh

/-- Record an accepted input value: write the shared 'current' slot, refresh
the fingerprint, then copy 'current' into the per-simulation slots
(the tail of _InputAcceptor.__setitem__). -/
def setInputRecord (net : Network) (s : Nat) (var : FVar) (v : InVal)
    (sh : SimState) (loc : SimLocal) : SimState × SimLocal × Option String :=
  let sh1 := { sh with inputCurrent := aset sh.inputCurrent var.vid v }
  (updateToCurrent net s sh1, updateUniqueId net sh1 loc, none)

/-- _InputAcceptor.__setitem__ for scalar and label inputs: locate the
Antecedent by label, bounds-check numeric values against the universe
(clamping or raising IndexError according to clip_to_bounds), then record.
If the simulation had previously seen array inputs, a scalar input first
triggers a full reset (the source warns and calls reset()). -/
def setInput (net : Network) (s : Nat) (key : String) (v : InVal)
    (sh : SimState) (loc : SimLocal) : SimState × SimLocal × Option String :=
  match (graphAntecedents net).find? (fun a => a.lbl = key) with
  | none => (sh, loc, some ("Unexpected input: " ++ key))
  | some var =>
    match v with
    | .lbl l => setInputRecord net s var (.lbl l) sh loc
    | .num x =>
      let t := if loc.arrayInputs then resetSim net sh loc else (sh, loc)
      let umax := qMax var.univ
      let umin := qMin var.univ
      if x > umax then
        if loc.clipToBounds then
          setInputRecord net s var (.num (min x umax)) t.1 t.2
        else
          (t.1, t.2, some ("Input value out of bounds. Max is "
            ++ toString umax ++ "."))
      else if x < umin then
        if loc.clipToBounds then
          setInputRecord net s var (.num (max x umin)) t.1 t.2
        else
          (t.1, t.2, some ("Input value is out of bounds. Min is "
            ++ toString umin ++ "."))
      else setInputRecord net s var (.num x) t.1 t.2

/-- One step of fuzz for a label input: membership 1 for the matching term
and 0 otherwise. -/
def fuzzLblStep (s : Nat) (l : String) (a : SimState) (t : FTerm) : SimState :=
  { a with memb := aset a.memb (t.tid, s) (if t.lbl = l then 1 else 0) }

/-- One step of fuzz for a numeric input: interpolate the term's curve. -/
def fuzzNumStep (s : Nat) (xs : List ℚ) (x : ℚ) (a : SimState) (t : FTerm) :
    SimState :=
  { a with memb := aset a.memb (t.tid, s) (interpMf xs t.mf x) }

/-- CrispValueCalculator.fuzz: a label input sets membership 1 for the
matching term and 0 for the others; a numeric input interpolates every
term's curve at the value.  A variable without terms raises. -/
def fuzz (var : FVar) (s : Nat) (v : InVal) (sh : SimState) :
    SimState × Option String :=
  if var.terms.isEmpty then
    (sh, some ("No terms and membership functions were yet specified for the fuzzy variable '"
      ++ var.lbl ++ "'."))
  else
    match v with
    | .lbl l => (var.terms.foldl (fuzzLblStep s l) sh, none)
    | .num x => (var.terms.foldl (fuzzNumStep s var.univ x) sh, none)

/-- The missing-input error message of compute(). -/
def missingMsg : String := "All antecedents must have input values!"

/-- The input-check-and-fuzzify loop of compute(): antecedents are visited
in graph order, and the missing-input check is interleaved with the
fuzzification, so antecedents before the first missing one are fuzzified
before the error is raised. -/
def fuzzAll (s : Nat) : List FVar → SimState → SimState × Option String
  | [], sh => (sh, none)
  | a :: rest, sh =>
    match alookup sh.inputSim (a.vid, s) with
    | none => (sh, some missingMsg)
    | some v =>
      match fuzz a s v sh with
      | (sh', some e) => (sh', some e)
      | (sh', none) => fuzzAll s rest sh'

/-- Modelled from the spec: evaluation of the antecedent expression tree
over the current term memberships (TermAggregate in term.py, not under
src/): "fuzzy AND=min, OR=max, NOT=complement" with the default aggregation
methods.  An undefined leaf membership makes the whole value undefined (the
source would raise deep inside numpy). -/
def evalAnt (s : Nat) (sh : SimState) : AntExpr → Option ℚ
  | .term t => alookup sh.memb (t, s)
  | .and a b =>
    match evalAnt s sh a, evalAnt s sh b with
    | some x, some y => some (min x y)
    | _, _ => none
  | .or a b =>
    match evalAnt s sh a, evalAnt s sh b with
    | some x, some y => some (max x y)
    | _, _ => none
  | .not a => (evalAnt s sh a).map (fun x => qSub 1 x)

/-- One activation step of compute_rule: activation = firing × weight. -/
def activStep (r : FRule) (s : Nat) (f : ℚ) (a : SimState) (c : WeightedTerm) :
    SimState :=
  { a with activ := aset a.activ (r.label, c.term, s) (qMul f c.weight) }

/-- One accumulation step of compute_rule: combine the new activation with
the previous membership using the owning variable's accumulation method,
and record the cut under the rule's label. -/
def accumStep (net : Network) (accM : Nat → ℚ → ℚ → ℚ) (r : FRule) (s : Nat)
    (f : ℚ) (a : SimState) (c : WeightedTerm) : SimState :=
  let value := qMul f c.weight
  let newv :=
    match alookup a.memb (c.term, s) with
    | none => value
    | some old => accM ((termParent net c.term).elim 0 (·.vid)) value old
  { a with memb := aset a.memb (c.term, s) newv,
           cuts := aset a.cuts (c.term, s, r.label) newv }

/-- ControlSystemSimulation.compute_rule: aggregation (firing strength from
the antecedent tree), activation (firing × weight per consequent), and
accumulation (combine with the previous membership using the owning
variable's accumulation method accM, recording the cut per rule label). -/
def computeRule (net : Network) (accM : Nat → ℚ → ℚ → ℚ) (r : FRule) (s : Nat)
    (sh : SimState) : SimState × Option String :=
  match evalAnt s sh r.ant with
  | none => (sh, some "antecedent membership undefined")
  | some f =>
    let sh1 := { sh with firing := aset sh.firing (r.label, s) f }
    let sh2 := r.cons.foldl (activStep r s f) sh1
    (r.cons.foldl (accumStep net accM r s f) sh2, none)

/-- The rule loop body of compute() after the first-rule clearing. -/
def runRulesGo (net : Network) (accM : Nat → ℚ → ℚ → ℚ) (s : Nat) :
    List FRule → SimState → SimState × Option String
  | [], sh => (sh, none)
  | r :: rs, sh =>
    match computeRule net accM r s sh with
    | (sh', some e) => (sh', some e)
    | (sh', none) => runRulesGo net accM s rs sh'

/-- One step of the first-rule clearing of compute(): set the membership of
one consequent term of the first rule, and its activation, to None. -/
def firstClearStep (r0 : FRule) (s : Nat) (a : SimState) (c : WeightedTerm) :
    SimState :=
  { a with memb := aerase a.memb (c.term, s),
           activ := aerase a.activ (r0.label, c.term, s) }

/-- The rule loop of compute(): before the FIRST rule only, the memberships
and activations of that rule's consequent terms are cleared (set to None),
then every rule is executed in order. -/
def runRules (net : Network) (accM : Nat → ℚ → ℚ → ℚ) (order : List FRule)
    (s : Nat) (sh : SimState) : SimState × Option String :=
  match order with
  | [] => (sh, none)
  | r0 :: _ => runRulesGo net accM s order (r0.cons.foldl (firstClearStep r0 s) sh)

/-- The terms of a variable with a defined membership value in this
simulation, with their cut levels, in term insertion order. -/
def definedTerms (var : FVar) (s : Nat) (sh : SimState) : List (FTerm × ℚ) :=
  var.terms.filterMap (fun t =>
    (alookup sh.memb (t.tid, s)).map (fun c => (t, c)))

/-- CrispValueCalculator.find_memberships (scalar path): collect the exact
crossing locations of every defined term's curve with its cut level, union
them with the universe, then build each term's clipped re-interpolated curve
on the extended universe and fold a pointwise maximum starting from the zero
curve.  Returns (extended universe, output curve, per-term curves). -/
def findMemberships (var : FVar) (s : Nat) (sh : SimState) :
    List ℚ × List ℚ × List (String × List ℚ) :=
  let defined := definedTerms var s sh
  let newU := sortedUnion var.univ
    (defined.flatMap (fun tc => crossings tc.2 (var.univ.zip tc.1.mf)))
  let termMfs := defined.map (fun tc =>
    (tc.1.lbl, newU.map (fun x => min tc.2 (interpMf var.univ tc.1.mf x))))
  (newU,
   termMfs.foldl (fun a q => List.zipWith max a q.2) (newU.map (fun _ => (0 : ℚ))),
   termMfs)

/-- The no-membership error message of defuzz(). -/
def noMembMsg : String :=
  "No terms have memberships.  Make sure you have at least one rule connected to this variable and have run the rules calculation."

/-- CrispValueCalculator.defuzz (scalar path): raise if no term has a
defined membership, otherwise apply the variable's configured
defuzzification method dfz (an external collaborator, passed abstractly) to
the extended universe and the combined output curve. -/
def defuzzCVC (dfz : Nat → List ℚ → List ℚ → ℚ) (var : FVar) (s : Nat)
    (sh : SimState) : Except String ℚ :=
  let t := findMemberships var s sh
  if t.2.2.isEmpty then .error noMembMsg
  else .ok (dfz var.vid t.1 t.2.1)

/-- The consequent-collection loop of compute(): defuzzify every Consequent
in graph order, storing the crisp value both in the shared per-node store
and in the simulation's own output map. -/
def defuzzAll (dfz : Nat → List ℚ → List ℚ → ℚ) (s : Nat) :
    List FVar → SimState → SimLocal → SimState × SimLocal × Option String
  | [], sh, loc => (sh, loc, none)
  | c :: rest, sh, loc =>
    match defuzzCVC dfz c s sh with
    | .error e => (sh, loc, some e)
    | .ok v =>
      defuzzAll dfz s rest
        { sh with consOut := aset sh.consOut (c.vid, s) v }
        { loc with out := aset loc.out c.lbl (some v) }

/-- One step of the cache-hit branch of compute(): copy one Consequent's
previously stored output into the simulation's output map. -/
def hitStep (s : Nat) (sh : SimState) (l : SimLocal) (c : FVar) : SimLocal :=
  { l with out := aset l.out c.lbl (alookup sh.consOut (c.vid, s)) }

/-- ControlSystemSimulation.compute.  The accumulation methods accM (per
consequent variable) and defuzzification methods dfz (per variable) are
external collaborators passed abstractly.  Array-mode evaluation is outside
the model: it is reported as an explicit modelling boundary (that branch of
the source disables caching and clears outputs before broadcasting). -/
def compute (net : Network) (accM : Nat → ℚ → ℚ → ℚ)
    (dfz : Nat → List ℚ → List ℚ → ℚ) (s : Nat) (sh : SimState)
    (loc : SimLocal) : SimState × SimLocal × Option String :=
  let sh0 := updateToCurrent net s sh
  if loc.arrayInputs then
    let t := clearOutputs net sh0 { loc with cache := false }
    (t.1, t.2, some "array-mode evaluation not modelled")
  else if loc.cache && loc.calculated.contains loc.uniqueId then
    (sh0, (graphConsequents net).foldl (hitStep s sh0) loc, none)
  else
    match fuzzAll s (graphAntecedents net) sh0 with
    | (sh1, some e) => (sh1, loc, some e)
    | (sh1, none) =>
      match ruleOrder net with
      | .error e => (sh1, loc, some e)
      | .ok order =>
        match runRules net accM order s sh1 with
        | (sh2, some e) => (sh2, loc, some e)
        | (sh2, none) =>
          match defuzzAll dfz s (graphConsequents net) sh2 loc with
          | (sh3, loc3, some e) => (sh3, loc3, some e)
          | (sh3, loc3, none) =>
            let t4 : SimState × SimLocal :=
              if loc3.cache then
                (sh3, { loc3 with calculated := loc3.calculated ++ [loc3.uniqueId] })
              else resetSim net sh3 loc3
            let loc5 : SimLocal := { t4.2 with run := t4.2.run + 1 }
            if loc5.run % loc5.flushAfterRun = 0 then
              let t6 := resetSim net t4.1 loc5
              (t6.1, t6.2, none)
            else (t4.1, loc5, none)

/-! ### Claim-side definitions

Definitions written from the wording of the specification, used to state the
claims about the code-side definitions above. -/

/-- Rule r' must fire before rule r: some non-antecedent term read by r's
antecedent tree is written by r'. -/
def dependsOn (net : Network) (r' r : FRule) : Prop :=
  ∃ t ∈ antLeaves r.ant, isAntTerm net t = false ∧ t ∈ writes r'

instance (net : Network) (r' r : FRule) : Decidable (dependsOn net r' r) :=
  inferInstanceAs
    (Decidable (∃ t ∈ antLeaves r.ant, isAntTerm net t = false ∧ t ∈ writes r'))

/-- The premise of claim C1: the dependency graph restricted to
non-Antecedent terms and rules is acyclic, formalised by the standard
finite-graph characterisation — no self-dependency and the existence of a
topological enumeration of the rules. -/
def RestrictedAcyclic (net : Network) : Prop :=
  (∀ r ∈ net.rules, ¬ dependsOn net r r) ∧
  ∃ topo : List FRule, topo.Perm net.rules ∧
    topo.Pairwise (fun a b => ¬ dependsOn net b a)

/-- The calculated graph after yielding the rules Y in order (the graph
_process_rules has composed when Y has been yielded). -/
def calcedOf (net : Network) (Y : List FRule) : Graph :=
  Y.foldl (fun g r => composeG g (ruleGraph net r)) (initCalced net)

/-- A yielded sequence is dependency-sound relative to the already-yielded
prefix Y: each rule's in-network dependencies lie in Y extended by the rules
yielded before it (claim C1's condition (b) per position). -/
def SoundFrom (net : Network) : List FRule → List FRule → Prop
  | _, [] => True
  | Y, r :: rest =>
    (∀ r' ∈ net.rules, dependsOn net r' r → r' ∈ Y) ∧
    SoundFrom net (Y ++ [r]) rest

/-- The evaluation state that one simulation (identified by s') sees in the
shared stores: its keyed inputs, term memberships, cuts, firing strengths,
activations and stored outputs.  Two shared states agree for s' when every
such lookup coincides (claim C5 speaks about this view). -/
def sameSimView (s' : Nat) (sh1 sh2 : SimState) : Prop :=
  (∀ w, alookup sh1.inputSim (w, s') = alookup sh2.inputSim (w, s')) ∧
  (∀ t, alookup sh1.memb (t, s') = alookup sh2.memb (t, s')) ∧
  (∀ t rl, alookup sh1.cuts (t, s', rl) = alookup sh2.cuts (t, s', rl)) ∧
  (∀ rl, alookup sh1.firing (rl, s') = alookup sh2.firing (rl, s')) ∧
  (∀ rl t, alookup sh1.activ (rl, t, s') = alookup sh2.activ (rl, t, s')) ∧
  (∀ w, alookup sh1.consOut (w, s') = alookup sh2.consOut (w, s'))

/-- Claim C2's extended universe, written from the spec: the union of the
variable's universe with every location where a defined term's curve crosses
that term's cut level. -/
def specExtUniverse (var : FVar) (s : Nat) (sh : SimState) : List ℚ :=
  sortedUnion var.univ
    ((definedTerms var s sh).flatMap (fun tc => crossings tc.2 (var.univ.zip tc.1.mf)))

/-- Claim C2's cut curve of one defined term, written from the spec: the
pointwise minimum of the term's cut level and the term's curve
re-interpolated on the extended universe. -/
def specCutCurve (var : FVar) (tc : FTerm × ℚ) (ext : List ℚ) : List ℚ :=
  ext.map (fun x => min tc.2 (interpMf var.univ tc.1.mf x))

/-- Claim C2's combined curve, written from the spec: the pointwise maximum,
over all terms with defined membership, of their cut curves. -/
def specCombinedCurve (var : FVar) (s : Nat) (sh : SimState) : List ℚ :=
  match definedTerms var s sh with
  | [] => []
  | tc :: rest =>
    rest.foldl
      (fun a q => List.zipWith max a (specCutCurve var q (specExtUniverse var s sh)))
      (specCutCurve var tc (specExtUniverse var s sh))

/-! ### Concrete instances used by witnesses and counterexamples -/

/-- Example Antecedent variable over the universe [0, 10]. -/
def exTemp : FVar := ⟨0, "temp", true, [0, 10], [⟨1, "lo", [1, 0]⟩, ⟨2, "hi", [0, 1]⟩]⟩

/-- A second example Antecedent variable. -/
def exService : FVar := ⟨3, "service", true, [0, 10], [⟨4, "good", [0, 1]⟩]⟩

/-- Example Consequent variable. -/
def exOut : FVar := ⟨5, "tip", false, [0, 10], [⟨6, "high", [1, 1]⟩]⟩

/-- Example rule: if temp is hi then tip is high. -/
def exRule : FRule := ⟨0, .term 2, [⟨6, 1⟩]⟩

/-- Example one-rule network. -/
def exNet : Network := ⟨[exTemp, exOut], [exRule]⟩

/-- The empty shared store. -/
def exShEmpty : SimState := ⟨[], [], [], [], [], [], []⟩

/-- A fresh simulation with default settings (cache on, clipping on). -/
def exLoc : SimLocal := ⟨[], [], 0, true, false, true, 1000, computeUID exNet exShEmpty⟩

/-- A fresh simulation with clip_to_bounds disabled. -/
def exLocNoClip : SimLocal := ⟨[], [], 0, true, false, false, 1000, computeUID exNet exShEmpty⟩

/-- A fresh simulation with caching disabled. -/
def exLocNoCache : SimLocal := ⟨[], [], 0, false, false, true, 1000, computeUID exNet exShEmpty⟩

/-- Example accumulation method: the default, maximum. -/
def exAcc : Nat → ℚ → ℚ → ℚ := fun _ a b => max a b

/-- Example defuzzification method (abstract collaborator for witnesses). -/
def exDfz : Nat → List ℚ → List ℚ → ℚ := fun _ _ m => qMax m

/-- The fingerprint of exNet with temp = 3. -/
def exUid3 : UID := [("temp", some (.num 3))]

/-- A shared store holding a previously computed output for exNet. -/
def c4sh : SimState :=
  ⟨[(0, .num 3)], [((0, 7), .num 3)], [((2, 7), mkRat 3 10)], [],
    [((0, 7), mkRat 3 10)], [], [((5, 7), mkRat 3 10)]⟩

/-- A simulation that already computed the run fingerprinted exUid3. -/
def c4loc : SimLocal :=
  ⟨[("tip", some (mkRat 3 10))], [exUid3], 1, true, false, true, 1000, exUid3⟩

/-- Claim C8's network: one rule reading two Antecedents. -/
def c8Rule : FRule := ⟨0, .and (.term 2) (.term 4), [⟨6, 1⟩]⟩

/-- Claim C8's network. -/
def c8net : Network := ⟨[exTemp, exService, exOut], [c8Rule]⟩

/-- A store where only the first Antecedent of c8net has an input. -/
def c8sh : SimState := ⟨[(0, .num 3)], [], [], [], [], [], []⟩

/-- A fresh simulation over c8net. -/
def c8loc : SimLocal := ⟨[], [], 0, true, false, true, 1000, computeUID c8net exShEmpty⟩

/-- The shared store after setting temp = 3 on a no-cache simulation. -/
def c9sh1 : SimState :=
  (setInput exNet 7 "temp" (.num 3) exShEmpty exLocNoCache).1

/-- The no-cache simulation after setting temp = 3. -/
def c9loc1 : SimLocal :=
  (setInput exNet 7 "temp" (.num 3) exShEmpty exLocNoCache).2.1

/-- A shared store holding evaluation state of a second simulation (id 2). -/
def c5sh : SimState :=
  ⟨[(0, .num 3)], [((0, 2), .num 3)], [((6, 2), mkRat 1 2)], [],
    [((0, 2), mkRat 1 2)], [], [((5, 2), mkRat 1 2)]⟩

/-- Claim C3's mutually dependent network: two Consequent variables, each
rule reading the term written by the other. -/
def c3w1 : FVar := ⟨0, "w1", false, [0, 1], [⟨1, "p", [1, 1]⟩]⟩

/-- Second variable of the mutually dependent network. -/
def c3w2 : FVar := ⟨2, "w2", false, [0, 1], [⟨3, "q", [1, 1]⟩]⟩

/-- First rule of the cycle. -/
def c3rC : FRule := ⟨0, .term 1, [⟨3, 1⟩]⟩

/-- Second rule of the cycle. -/
def c3rD : FRule := ⟨1, .term 3, [⟨1, 1⟩]⟩

/-- The mutually dependent two-rule network. -/
def c3net : Network := ⟨[c3w1, c3w2], [c3rC, c3rD]⟩

/-- A rule duplicating exRule's label 0 (different content). -/
def c6dup : FRule := ⟨0, .term 1, [⟨6, 2⟩]⟩

/-- A later, fresh-labelled rule. -/
def c6next : FRule := ⟨3, .term 1, [⟨6, 1⟩]⟩

/-- Claim C1's counterexample: Antecedent variable. -/
def c1xA : FVar := ⟨0, "a", true, [0, 1], [⟨1, "t1", [1, 1]⟩]⟩

/-- Claim C1's counterexample: intermediate variable with an extra term t4
that no rule writes. -/
def c1xV2 : FVar := ⟨2, "v2", false, [0, 1], [⟨3, "t3", [1, 1]⟩, ⟨4, "t4", [1, 1]⟩]⟩

/-- Claim C1's counterexample: output variable. -/
def c1xV3 : FVar := ⟨5, "v3", false, [0, 1], [⟨6, "t6", [1, 1]⟩]⟩

/-- Rule A: reads the antecedent term t1, writes t3 (touching v2). -/
def c1xRA : FRule := ⟨0, .term 1, [⟨3, 1⟩]⟩

/-- Rule B: reads the never-written non-antecedent term t4, writes t6. -/
def c1xRB : FRule := ⟨10, .term 4, [⟨6, 1⟩]⟩

/-- Claim C1's counterexample network. -/
def c1xNet : Network := ⟨[c1xA, c1xV2, c1xV3], [c1xRA, c1xRB]⟩

/-- Claim C1's witness: intermediate variable. -/
def c1wMid : FVar := ⟨3, "mid", false, [0, 1], [⟨4, "m", [1, 1]⟩]⟩

/-- Claim C1's witness: output variable. -/
def c1wOut : FVar := ⟨5, "outw", false, [0, 1], [⟨6, "o", [1, 1]⟩]⟩

/-- Witness rule 1: reads both antecedent terms, writes the intermediate. -/
def c1wR1 : FRule := ⟨0, .and (.term 1) (.term 2), [⟨4, 1⟩]⟩

/-- Witness rule 2: reads the intermediate, writes the output. -/
def c1wR2 : FRule := ⟨1, .term 4, [⟨6, 1⟩]⟩

/-- Claim C1's witness network, with the rules added in dependency-breaking
order (rule 2 first). -/
def c1wNet : Network := ⟨[exTemp, c1wMid, c1wOut], [c1wR2, c1wR1]⟩

/-- Claim C2's witness store: both terms of exTemp hold defined membership
values in simulation 9 (cuts 7/10 and 3/10). -/
def c2sh : SimState :=
  ⟨[], [], [((1, 9), mkRat 7 10), ((2, 9), mkRat 3 10)], [], [], [], []⟩

/-! ## Theorems -/

/-! ### The kernel-computable rational operations are the field operations -/

theorem qAdd_eq (a b : ℚ) : qAdd a b = a + b := by
  rw [qAdd, Rat.add_def, Rat.normalize_eq_mkRat]

theorem qSub_eq (a b : ℚ) : qSub a b = a - b := by
  rw [qSub, Rat.sub_def, Rat.normalize_eq_mkRat]

theorem qMul_eq (a b : ℚ) : qMul a b = a * b := (Rat.mul_eq_mkRat a b).symm

theorem qDiv_eq (a b : ℚ) : qDiv a b = a / b := (Rat.div_def' a b).symm

/-! ### Association lists -/

theorem alookup_aset {α β : Type} [DecidableEq α] (m : List (α × β)) (k : α)
    (v : β) : alookup (aset m k v) k = some v := by
  simp [alookup, aset]

theorem alookup_aset_ne {α β : Type} [DecidableEq α] (m : List (α × β))
    (k k' : α) (v : β) (h : k ≠ k') : alookup (aset m k v) k' = alookup m k' := by
  simp [alookup, aset, h]

theorem alookup_aerase {α β : Type} [DecidableEq α] (m : List (α × β)) (k : α) :
    alookup (aerase m k) k = none := by
  induction m with
  | nil => rfl
  | cons p rest ih =>
    by_cases h : p.1 = k
    · simpa [aerase, h] using ih
    · simpa [aerase, alookup, h] using ih

theorem alookup_aerase_ne {α β : Type} [DecidableEq α] (m : List (α × β))
    (k k' : α) (h : k ≠ k') : alookup (aerase m k) k' = alookup m k' := by
  induction m with
  | nil => rfl
  | cons p rest ih =>
    by_cases hp : p.1 = k
    · have hpk : p.1 ≠ k' := by rw [hp]; exact h
      simp [aerase, alookup, hp, hpk, h, ih]
    · by_cases hq : p.1 = k'
      · simp [aerase, alookup, hp, hq, Ne.symm h]
      · simpa [aerase, alookup, hp, hq] using ih

theorem alookup_afilterK_neg {α β : Type} [DecidableEq α] (m : List (α × β))
    (p : α → Bool) (k : α) (h : p k = false) :
    alookup (afilterK m p) k = none := by
  induction m with
  | nil => rfl
  | cons q rest ih =>
    by_cases hq : q.1 = k
    · have : p q.1 = false := by rw [hq]; exact h
      simpa [afilterK, List.filter_cons, this] using ih
    · by_cases hpq : p q.1
      · simpa [afilterK, List.filter_cons, hpq, alookup, hq] using ih
      · simp only [Bool.not_eq_true] at hpq
        simpa [afilterK, List.filter_cons, hpq] using ih

theorem alookup_afilterK_pos {α β : Type} [DecidableEq α] (m : List (α × β))
    (p : α → Bool) (k : α) (h : p k = true) :
    alookup (afilterK m p) k = alookup m k := by
  induction m with
  | nil => rfl
  | cons q rest ih =>
    by_cases hq : q.1 = k
    · have : p q.1 = true := by rw [hq]; exact h
      simp [afilterK, List.filter_cons, this, alookup, hq, h]
    · by_cases hpq : p q.1
      · simpa [afilterK, List.filter_cons, hpq, alookup, hq] using ih
      · simp only [Bool.not_eq_true] at hpq
        simpa [afilterK, List.filter_cons, hpq, alookup, hq] using ih

/-! ### First-occurrence deduplication -/

theorem mem_firstDedupAux {α : Type} [DecidableEq α] (a : α) :
    ∀ (l seen : List α), a ∈ firstDedupAux l seen ↔ a ∈ l ∧ a ∉ seen := by
  intro l
  induction l with
  | nil => intro seen; simp [firstDedupAux]
  | cons x xs ih =>
    intro seen
    by_cases hx : x ∈ seen
    · rw [firstDedupAux, if_pos hx, ih]
      constructor
      · rintro ⟨h1, h2⟩
        exact ⟨List.mem_cons_of_mem x h1, h2⟩
      · rintro ⟨h1, h2⟩
        rcases List.mem_cons.1 h1 with rfl | h1'
        · exact absurd hx h2
        · exact ⟨h1', h2⟩
    · rw [firstDedupAux, if_neg hx]
      simp only [List.mem_cons, ih]
      constructor
      · rintro (rfl | ⟨h1, h2⟩)
        · exact ⟨Or.inl rfl, hx⟩
        · exact ⟨Or.inr h1, fun hm => h2 (Or.inr hm)⟩
      · rintro ⟨rfl | h1, h2⟩
        · exact Or.inl rfl
        · by_cases hax : a = x
          · exact Or.inl hax
          · exact Or.inr ⟨h1, fun hm => by
              rcases hm with h | h
              · exact hax h
              · exact h2 h⟩

theorem mem_firstDedup {α : Type} [DecidableEq α] (a : α) (l : List α) :
    a ∈ firstDedup l ↔ a ∈ l := by
  rw [firstDedup, mem_firstDedupAux]
  simp

theorem nodup_firstDedupAux {α : Type} [DecidableEq α] :
    ∀ (l seen : List α), (firstDedupAux l seen).Nodup := by
  intro l
  induction l with
  | nil => intro seen; simp [firstDedupAux]
  | cons x xs ih =>
    intro seen
    by_cases hx : x ∈ seen
    · rw [firstDedupAux, if_pos hx]
      exact ih seen
    · rw [firstDedupAux, if_neg hx]
      refine List.nodup_cons.2 ⟨?_, ih (x :: seen)⟩
      rw [mem_firstDedupAux]
      rintro ⟨_, h2⟩
      exact h2 (List.mem_cons_self x seen)

theorem nodup_firstDedup {α : Type} [DecidableEq α] (l : List α) :
    (firstDedup l).Nodup :=
  nodup_firstDedupAux l []

/-! ### Numeric helpers -/

theorem le_foldl_max : ∀ (xs : List ℚ) (x : ℚ), x ≤ xs.foldl max x
  | [], _ => le_refl _
  | y :: ys, x =>
    le_trans (le_max_left x y) (le_foldl_max ys (max x y))

theorem foldl_min_le : ∀ (xs : List ℚ) (x : ℚ), xs.foldl min x ≤ x
  | [], _ => le_refl _
  | y :: ys, x =>
    le_trans (foldl_min_le ys (min x y)) (min_le_left x y)

theorem qMin_le_qMax (l : List ℚ) : qMin l ≤ qMax l := by
  cases l with
  | nil => exact le_refl 0
  | cons x xs =>
    exact le_trans (foldl_min_le xs x) (le_foldl_max xs x)

/-! ### The fuzzification folds -/

theorem membSetFold_fields (s : Nat) (step : SimState → FTerm → SimState)
    (hstep : ∀ a t, ∃ q, step a t = { a with memb := aset a.memb (t.tid, s) q }) :
    ∀ (ts : List FTerm) (sh : SimState),
      (ts.foldl step sh).inputCurrent = sh.inputCurrent ∧
      (ts.foldl step sh).inputSim = sh.inputSim ∧
      (ts.foldl step sh).cuts = sh.cuts ∧
      (ts.foldl step sh).firing = sh.firing ∧
      (ts.foldl step sh).activ = sh.activ ∧
      (ts.foldl step sh).consOut = sh.consOut ∧
      ∀ k : Nat × Nat, (k.2 ≠ s ∨ k.1 ∉ ts.map (·.tid)) →
        alookup (ts.foldl step sh).memb k = alookup sh.memb k := by
  intro ts
  induction ts with
  | nil => intro sh; simp
  | cons t rest ih =>
    intro sh
    obtain ⟨q, hq⟩ := hstep sh t
    have ihr := ih (step sh t)
    simp only [List.foldl_cons]
    refine ⟨?_, ?_, ?_, ?_, ?_, ?_, ?_⟩
    · rw [ihr.1, hq]
    · rw [ihr.2.1, hq]
    · rw [ihr.2.2.1, hq]
    · rw [ihr.2.2.2.1, hq]
    · rw [ihr.2.2.2.2.1, hq]
    · rw [ihr.2.2.2.2.2.1, hq]
    · intro k hk
      have hk' : k.2 ≠ s ∨ k.1 ∉ rest.map (·.tid) := by
        rcases hk with h | h
        · exact Or.inl h
        · exact Or.inr (fun hm => h (by simp only [List.map_cons, List.mem_cons]; exact Or.inr hm))
      rw [ihr.2.2.2.2.2.2 k hk', hq]
      have hkey : (t.tid, s) ≠ k := by
        rcases hk with h | h
        · intro he; apply h; rw [← he]
        · intro he; apply h; rw [← he]; simp
      simp only []
      exact alookup_aset_ne _ _ _ _ hkey

theorem fuzzLblStep_shape (s : Nat) (l : String) :
    ∀ a t, ∃ q, fuzzLblStep s l a t = { a with memb := aset a.memb (t.tid, s) q } :=
  fun a t => ⟨if t.lbl = l then 1 else 0, rfl⟩

theorem fuzzNumStep_shape (s : Nat) (xs : List ℚ) (x : ℚ) :
    ∀ a t, ∃ q, fuzzNumStep s xs x a t = { a with memb := aset a.memb (t.tid, s) q } :=
  fun a t => ⟨interpMf xs t.mf x, rfl⟩

theorem fuzzLblFold_zero (s : Nat) (l : String) :
    ∀ (ts : List FTerm) (sh : SimState) (w : Nat),
      (∀ u ∈ ts, u.lbl ≠ l) →
      ((∃ u ∈ ts, u.tid = w) ∨ alookup sh.memb (w, s) = some 0) →
      alookup ((ts.foldl (fuzzLblStep s l) sh).memb) (w, s) = some 0 := by
  intro ts
  induction ts with
  | nil =>
    intro sh w _ hw
    rcases hw with h | h
    · simp at h
    · exact h
  | cons u rest ih =>
    intro sh w hlbl hw
    have hu : u.lbl ≠ l := hlbl u (List.mem_cons_self u rest)
    have hz : fuzzLblStep s l sh u
        = { sh with memb := aset sh.memb (u.tid, s) 0 } := by
      simp [fuzzLblStep, hu]
    simp only [List.foldl_cons, hz]
    by_cases htid : u.tid = w
    · refine ih _ w (fun v hv => hlbl v (List.mem_cons_of_mem u hv)) (Or.inr ?_)
      simp only [htid]
      exact alookup_aset _ _ _
    · rcases hw with h | h
      · rcases h with ⟨v, hv, hvw⟩
        rcases List.mem_cons.1 hv with rfl | hv'
        · exact absurd hvw htid
        · exact ih _ w (fun v' hv' => hlbl v' (List.mem_cons_of_mem u hv'))
            (Or.inl ⟨v, hv', hvw⟩)
      · refine ih _ w (fun v hv => hlbl v (List.mem_cons_of_mem u hv)) (Or.inr ?_)
        simp only []
        rw [alookup_aset_ne _ _ _ _ (by intro he; exact htid (congrArg Prod.fst he))]
        exact h

/-! ### The per-simulation input copy -/

theorem utcStep_fields (s : Nat) (a : SimState) (v : FVar) :
    (utcStep s a v).inputCurrent = a.inputCurrent ∧
    (utcStep s a v).memb = a.memb ∧
    (utcStep s a v).cuts = a.cuts ∧
    (utcStep s a v).firing = a.firing ∧
    (utcStep s a v).activ = a.activ ∧
    (utcStep s a v).consOut = a.consOut := by
  unfold utcStep
  cases alookup a.inputCurrent v.vid <;> simp

theorem utcFold_fields (s : Nat) :
    ∀ (l : List FVar) (sh : SimState),
      (l.foldl (utcStep s) sh).inputCurrent = sh.inputCurrent ∧
      (l.foldl (utcStep s) sh).memb = sh.memb ∧
      (l.foldl (utcStep s) sh).cuts = sh.cuts ∧
      (l.foldl (utcStep s) sh).firing = sh.firing ∧
      (l.foldl (utcStep s) sh).activ = sh.activ ∧
      (l.foldl (utcStep s) sh).consOut = sh.consOut := by
  intro l
  induction l with
  | nil => intro sh; simp
  | cons v rest ih =>
    intro sh
    have h1 := utcStep_fields s sh v
    have h2 := ih (utcStep s sh v)
    simp only [List.foldl_cons]
    exact ⟨h2.1.trans h1.1, h2.2.1.trans h1.2.1, h2.2.2.1.trans h1.2.2.1,
      h2.2.2.2.1.trans h1.2.2.2.1, h2.2.2.2.2.1.trans h1.2.2.2.2.1,
      h2.2.2.2.2.2.trans h1.2.2.2.2.2⟩

theorem utcStep_inputSim_ne (s : Nat) (a : SimState) (v : FVar)
    (k : Nat × Nat) (hk : k ≠ (v.vid, s)) :
    alookup (utcStep s a v).inputSim k = alookup a.inputSim k := by
  unfold utcStep
  cases alookup a.inputCurrent v.vid with
  | none => exact alookup_aerase_ne _ _ _ (fun he => hk he.symm)
  | some w => exact alookup_aset_ne _ _ _ _ (fun he => hk he.symm)

theorem utcFold_inputSim_frame (s : Nat) :
    ∀ (l : List FVar) (sh : SimState) (k : Nat × Nat),
      (k.2 ≠ s ∨ ∀ a ∈ l, a.vid ≠ k.1) →
      alookup ((l.foldl (utcStep s) sh).inputSim) k = alookup sh.inputSim k := by
  intro l
  induction l with
  | nil => intro sh k _; rfl
  | cons v rest ih =>
    intro sh k hk
    have hkv : k ≠ (v.vid, s) := by
      rcases hk with h | h
      · intro he; apply h; rw [he]
      · intro he; exact h v (List.mem_cons_self v rest) (by rw [he])
    have hk' : k.2 ≠ s ∨ ∀ a ∈ rest, a.vid ≠ k.1 := by
      rcases hk with h | h
      · exact Or.inl h
      · exact Or.inr (fun a ha => h a (List.mem_cons_of_mem v ha))
    simp only [List.foldl_cons]
    rw [ih (utcStep s sh v) k hk', utcStep_inputSim_ne s sh v k hkv]

theorem utcStep_inputSim_self (s : Nat) (sh : SimState) (v : FVar) :
    alookup (utcStep s sh v).inputSim (v.vid, s)
      = alookup sh.inputCurrent v.vid := by
  unfold utcStep
  rcases hcur : alookup sh.inputCurrent v.vid with _ | u
  · simp only [hcur]
    exact alookup_aerase _ _
  · simp only [hcur]
    exact alookup_aset _ _ _

theorem utcFold_inputSim_inv (s : Nat) :
    ∀ (l : List FVar) (sh : SimState) (w : Nat),
      alookup sh.inputSim (w, s) = alookup sh.inputCurrent w →
      alookup ((l.foldl (utcStep s) sh).inputSim) (w, s)
        = alookup sh.inputCurrent w := by
  intro l
  induction l with
  | nil => intro sh w h; exact h
  | cons v rest ih =>
    intro sh w h
    simp only [List.foldl_cons]
    have hic : (utcStep s sh v).inputCurrent = sh.inputCurrent :=
      (utcStep_fields s sh v).1
    by_cases hv : v.vid = w
    · subst hv
      have hinv := utcStep_inputSim_self s sh v
      have := ih (utcStep s sh v) v.vid (by rw [hinv, hic])
      rw [this, hic]
    · have hstep := utcStep_inputSim_ne s sh v (w, s)
        (by intro he; exact hv (congrArg Prod.fst he).symm)
      have := ih (utcStep s sh v) w (by rw [hstep, hic]; exact h)
      rw [this, hic]

theorem utcFold_inputSim_mem (s : Nat) :
    ∀ (l : List FVar) (sh : SimState) (w : Nat),
      (∃ a ∈ l, a.vid = w) →
      alookup ((l.foldl (utcStep s) sh).inputSim) (w, s)
        = alookup sh.inputCurrent w := by
  intro l
  induction l with
  | nil =>
    intro sh w h
    simp at h
  | cons v rest ih =>
    intro sh w hmem
    simp only [List.foldl_cons]
    have hic : (utcStep s sh v).inputCurrent = sh.inputCurrent :=
      (utcStep_fields s sh v).1
    by_cases hv : v.vid = w
    · subst hv
      have hinv := utcStep_inputSim_self s sh v
      have := utcFold_inputSim_inv s rest (utcStep s sh v) v.vid
        (by rw [hinv, hic])
      rw [this, hic]
    · rcases hmem with ⟨a, ha, haw⟩
      rcases List.mem_cons.1 ha with rfl | ha'
      · exact absurd haw hv
      · have := ih (utcStep s sh v) w ⟨a, ha', haw⟩
        rw [this, hic]

/-! ### Recording an input -/

theorem setInputRecord_spec (net : Network) (s : Nat) (var : FVar) (v : InVal)
    (sh : SimState) (loc : SimLocal) (hmem : var ∈ graphAntecedents net) :
    (setInputRecord net s var v sh loc).2.2 = none ∧
    alookup (setInputRecord net s var v sh loc).1.inputCurrent var.vid = some v ∧
    alookup (setInputRecord net s var v sh loc).1.inputSim (var.vid, s) = some v := by
  refine ⟨rfl, ?_, ?_⟩
  · show alookup (updateToCurrent net s
      { sh with inputCurrent := aset sh.inputCurrent var.vid v }).inputCurrent var.vid
      = some v
    unfold updateToCurrent
    rw [(utcFold_fields s (graphAntecedents net) _).1]
    exact alookup_aset _ _ _
  · show alookup (updateToCurrent net s
      { sh with inputCurrent := aset sh.inputCurrent var.vid v }).inputSim (var.vid, s)
      = some v
    unfold updateToCurrent
    rw [utcFold_inputSim_mem s (graphAntecedents net) _ var.vid ⟨var, hmem, rfl⟩]
    exact alookup_aset _ _ _

/-! ### Claim C10 -/

/-- C10: for a variable with at least one term, fuzzify with a string value
that is not the label of any of the variable's terms raises no error and
sets every term's membership value for the simulation to 0. -/
theorem claim10_fuzz_unknown_label (var : FVar) (s : Nat) (l : String)
    (sh : SimState) (hne : var.terms ≠ [])
    (hl : ∀ t ∈ var.terms, t.lbl ≠ l) :
    (fuzz var s (.lbl l) sh).2 = none ∧
      ∀ t ∈ var.terms,
        alookup (fuzz var s (.lbl l) sh).1.memb (t.tid, s) = some 0 := by
  have hemp : var.terms.isEmpty = false := by
    cases h : var.terms with
    | nil => exact absurd h hne
    | cons a b => rfl
  constructor
  · simp [fuzz, hemp]
  · intro t ht
    simp only [fuzz, hemp, Bool.false_eq_true, if_false]
    exact fuzzLblFold_zero s l var.terms sh t.tid hl (Or.inl ⟨t, ht, rfl⟩)

/-- Witness for C10 at a concrete variable and label. -/
theorem claim10_fuzz_unknown_label_witness :
    exTemp.terms ≠ [] ∧ (∀ t ∈ exTemp.terms, t.lbl ≠ "nope") ∧
    ((fuzz exTemp 7 (.lbl "nope") exShEmpty).2 = none ∧
      ∀ t ∈ exTemp.terms,
        alookup (fuzz exTemp 7 (.lbl "nope") exShEmpty).1.memb (t.tid, 7) = some 0) :=
  ⟨by decide, by decide,
    claim10_fuzz_unknown_label exTemp 7 "nope" exShEmpty (by decide) (by decide)⟩

/-! ### Claim C7 -/

/-- C7: setting an existing Antecedent to a numeric value outside its
universe either clamps it to the violated bound (clip_to_bounds on: no
error, and the recorded input — both the shared 'current' slot and this
simulation's keyed slot — IS the violated bound, so subsequent
fuzzification is literally the fuzzification of the bound), or raises the
out-of-bounds IndexError leaving the shared store and the simulation
exactly unchanged (clip_to_bounds off). -/
theorem claim7_bounds_policy (net : Network) (s : Nat) (key : String) (x : ℚ)
    (sh : SimState) (loc : SimLocal) (var : FVar)
    (hfind : (graphAntecedents net).find? (fun a => a.lbl = key) = some var)
    (harr : loc.arrayInputs = false)
    (hout : qMax var.univ < x ∨ x < qMin var.univ) :
    (loc.clipToBounds = true →
      (setInput net s key (.num x) sh loc).2.2 = none ∧
      alookup (setInput net s key (.num x) sh loc).1.inputCurrent var.vid
        = some (.num (if qMax var.univ < x then qMax var.univ else qMin var.univ)) ∧
      alookup (setInput net s key (.num x) sh loc).1.inputSim (var.vid, s)
        = some (.num (if qMax var.univ < x then qMax var.univ else qMin var.univ))) ∧
    (loc.clipToBounds = false →
      (∃ msg, (setInput net s key (.num x) sh loc).2.2 = some msg) ∧
      (setInput net s key (.num x) sh loc).1 = sh ∧
      (setInput net s key (.num x) sh loc).2.1 = loc) := by
  have hmem : var ∈ graphAntecedents net := List.mem_of_find?_eq_some hfind
  rcases hout with hmax | hmin
  · constructor
    · intro hclip
      have hrec : setInput net s key (.num x) sh loc
          = setInputRecord net s var (.num (min x (qMax var.univ))) sh loc := by
        simp [setInput, hfind, harr, hmax, hclip]
      have hs := setInputRecord_spec net s var (.num (min x (qMax var.univ))) sh loc hmem
      have hv : InVal.num (min x (qMax var.univ))
          = .num (if qMax var.univ < x then qMax var.univ else qMin var.univ) := by
        rw [if_pos hmax, min_eq_right (le_of_lt hmax)]
      rw [hrec, ← hv]
      exact hs
    · intro hclip
      have hrec : setInput net s key (.num x) sh loc
          = (sh, loc, some ("Input value out of bounds. Max is "
              ++ toString (qMax var.univ) ++ ".")) := by
        simp [setInput, hfind, harr, hmax, hclip]
      rw [hrec]
      exact ⟨⟨_, rfl⟩, rfl, rfl⟩
  · have hnmax : ¬ qMax var.univ < x := by
      intro h
      exact absurd (lt_trans hmin (lt_of_le_of_lt (qMin_le_qMax var.univ) h))
        (lt_irrefl x)
    constructor
    · intro hclip
      have hrec : setInput net s key (.num x) sh loc
          = setInputRecord net s var (.num (max x (qMin var.univ))) sh loc := by
        simp [setInput, hfind, harr, hnmax, hmin, hclip]
      have hs := setInputRecord_spec net s var (.num (max x (qMin var.univ))) sh loc hmem
      have hv : InVal.num (max x (qMin var.univ))
          = .num (if qMax var.univ < x then qMax var.univ else qMin var.univ) := by
        rw [if_neg hnmax, max_eq_right (le_of_lt hmin)]
      rw [hrec, ← hv]
      exact hs
    · intro hclip
      have hrec : setInput net s key (.num x) sh loc
          = (sh, loc, some ("Input value is out of bounds. Min is "
              ++ toString (qMin var.univ) ++ ".")) := by
        simp [setInput, hfind, harr, hnmax, hmin, hclip]
      rw [hrec]
      exact ⟨⟨_, rfl⟩, rfl, rfl⟩

/-- Witness for C7: input 1000 on the universe [0, 10], both policies. -/
theorem claim7_bounds_policy_witness :
    (graphAntecedents exNet).find? (fun a => a.lbl = "temp") = some exTemp ∧
    qMax exTemp.univ < 1000 ∧
    ((exLoc.clipToBounds = true →
      (setInput exNet 7 "temp" (.num 1000) exShEmpty exLoc).2.2 = none ∧
      alookup (setInput exNet 7 "temp" (.num 1000) exShEmpty exLoc).1.inputCurrent exTemp.vid
        = some (.num (if qMax exTemp.univ < 1000 then qMax exTemp.univ else qMin exTemp.univ)) ∧
      alookup (setInput exNet 7 "temp" (.num 1000) exShEmpty exLoc).1.inputSim (exTemp.vid, 7)
        = some (.num (if qMax exTemp.univ < 1000 then qMax exTemp.univ else qMin exTemp.univ))) ∧
    (exLoc.clipToBounds = false →
      (∃ msg, (setInput exNet 7 "temp" (.num 1000) exShEmpty exLoc).2.2 = some msg) ∧
      (setInput exNet 7 "temp" (.num 1000) exShEmpty exLoc).1 = exShEmpty ∧
      (setInput exNet 7 "temp" (.num 1000) exShEmpty exLoc).2.1 = exLoc)) :=
  ⟨by decide, by decide,
    claim7_bounds_policy exNet 7 "temp" 1000 exShEmpty exLoc exTemp
      (by decide) (by decide) (Or.inl (by decide))⟩

/-! ### Claim C6 -/

/-- C6 (code bug): addrule's duplicate-label check scans only the
PREVIOUSLY added rules, never the label of the rule being added, so adding a
rule whose label collides with an existing rule's label succeeds and changes
the network graph; the duplicate-label ValueError only surfaces on the NEXT
addrule call.  The claim (and the source's own comment, "Ensure no label
duplication") says the colliding call itself must fail and leave the network
unchanged. -/
theorem claim6_duplicate_label_bug :
    c6dup.label = exRule.label ∧
    addrule exNet c6dup = .ok ⟨exNet.vars, [exRule, c6dup]⟩ ∧
    addrule ⟨exNet.vars, [exRule, c6dup]⟩ c6next
      = .error "Input rule cannot have same label, '0', as any other rule." := by
  refine ⟨rfl, by decide, by decide⟩

/-! ### Claim C3 -/

theorem processPass_all_skip (net : Network) (allG : Graph) :
    ∀ (rs : List FRule) (g : Graph),
      (∀ r ∈ rs, canCalc net allG g r = false) →
      processPass net allG rs g = ([], rs, g) := by
  intro rs
  induction rs with
  | nil => intro g _; rfl
  | cons r rest ih =>
    intro g h
    have hr := h r (List.mem_cons_self r rest)
    simp only [processPass, hr, Bool.false_eq_true, if_false]
    rw [ih g (fun r' hr' => h r' (List.mem_cons_of_mem r hr'))]

/-- C3: on a rule network whose unscheduled rules can never become
schedulable (no rule passes _can_calc_rule against the initial calculated
graph, so every scan yields nothing), iterating the rule evaluation order
fails with the cyclic-dependency RuntimeError — it neither loops forever
(the embedding is total) nor yields a partial order. -/
theorem claim3_cyclic_error (net : Network)
    (hne : allRules net ≠ [])
    (hstuck : ∀ r ∈ allRules net,
      canCalc net (systemGraph net) (initCalced net) r = false) :
    ruleOrder net = .error cyclicMsg := by
  have hpass := processPass_all_skip net (systemGraph net) (allRules net)
    (initCalced net) hstuck
  have hemp : (allRules net).isEmpty = false := by
    cases h : allRules net with
    | nil => exact absurd h hne
    | cons a b => rfl
  unfold ruleOrder
  simp only [processRules, hpass, hemp, Bool.false_eq_true, if_false, if_true]

/-- Witness for C3: the two-rule mutually dependent network (each rule's
consequent term feeds the other rule's antecedent, no Antecedent-only path)
yields the cyclic-dependency error. -/
theorem claim3_cyclic_error_witness :
    allRules c3net ≠ [] ∧ ruleOrder c3net = .error cyclicMsg :=
  ⟨by decide, claim3_cyclic_error c3net (by decide) (by decide)⟩

/-! ### The cache-hit output copy -/

theorem hitFold_fields (s : Nat) (sh : SimState) :
    ∀ (cs : List FVar) (loc : SimLocal),
      (cs.foldl (hitStep s sh) loc).calculated = loc.calculated ∧
      (cs.foldl (hitStep s sh) loc).run = loc.run ∧
      (cs.foldl (hitStep s sh) loc).cache = loc.cache ∧
      (cs.foldl (hitStep s sh) loc).arrayInputs = loc.arrayInputs ∧
      (cs.foldl (hitStep s sh) loc).clipToBounds = loc.clipToBounds ∧
      (cs.foldl (hitStep s sh) loc).flushAfterRun = loc.flushAfterRun ∧
      (cs.foldl (hitStep s sh) loc).uniqueId = loc.uniqueId := by
  intro cs
  induction cs with
  | nil => intro loc; exact ⟨rfl, rfl, rfl, rfl, rfl, rfl, rfl⟩
  | cons c rest ih =>
    intro loc
    simp only [List.foldl_cons]
    exact ih (hitStep s sh loc c)

theorem hitFold_out_frame (s : Nat) (sh : SimState) :
    ∀ (cs : List FVar) (loc : SimLocal) (l : String),
      l ∉ cs.map (·.lbl) →
      alookup ((cs.foldl (hitStep s sh) loc).out) l = alookup loc.out l := by
  intro cs
  induction cs with
  | nil => intro loc l _; rfl
  | cons c rest ih =>
    intro loc l hl
    simp only [List.map_cons, List.mem_cons] at hl
    push_neg at hl
    simp only [List.foldl_cons]
    rw [ih (hitStep s sh loc c) l hl.2]
    exact alookup_aset_ne _ _ _ _ (fun he => hl.1 he.symm)

theorem hitFold_out_mem (s : Nat) (sh : SimState) :
    ∀ (cs : List FVar) (loc : SimLocal),
      (cs.map (·.lbl)).Nodup →
      ∀ c ∈ cs,
        alookup ((cs.foldl (hitStep s sh) loc).out) c.lbl
          = some (alookup sh.consOut (c.vid, s)) := by
  intro cs
  induction cs with
  | nil => intro loc _ c hc; simp at hc
  | cons c0 rest ih =>
    intro loc hnd c hc
    have hnd' : c0.lbl ∉ rest.map (·.lbl) ∧ (rest.map (·.lbl)).Nodup := by
      rw [List.map_cons] at hnd
      exact List.nodup_cons.1 hnd
    simp only [List.foldl_cons]
    rcases List.mem_cons.1 hc with rfl | hc'
    · rw [hitFold_out_frame s sh rest (hitStep s sh loc c) c.lbl hnd'.1]
      exact alookup_aset _ _ _
    · exact ih (hitStep s sh loc c0) hnd'.2 c hc'

/-! ### Claim C4 -/

/-- C4: with caching enabled, no array inputs, and the current input
fingerprint already among the computed runs (the inputs are identical to an
already-computed run), compute() short-circuits: it returns without error,
copies the previously stored Consequent outputs into the simulation's
output map, and leaves every recorded term membership, cut, rule firing
strength, activation and stored consequent output exactly unchanged — no
inference is re-run; only the per-simulation input slots are refreshed from
the shared 'current' slots. -/
theorem claim4_cache_hit (net : Network) (accM : Nat → ℚ → ℚ → ℚ)
    (dfz : Nat → List ℚ → List ℚ → ℚ)
    (s : Nat) (sh : SimState) (loc : SimLocal)
    (harr : loc.arrayInputs = false)
    (hc : loc.cache = true)
    (hhit : loc.uniqueId ∈ loc.calculated)
    (hlbl : ((graphConsequents net).map (·.lbl)).Nodup) :
    ∃ loc',
      compute net accM dfz s sh loc = (updateToCurrent net s sh, loc', none) ∧
      (updateToCurrent net s sh).memb = sh.memb ∧
      (updateToCurrent net s sh).firing = sh.firing ∧
      (updateToCurrent net s sh).activ = sh.activ ∧
      (updateToCurrent net s sh).cuts = sh.cuts ∧
      (updateToCurrent net s sh).consOut = sh.consOut ∧
      loc'.calculated = loc.calculated ∧ loc'.run = loc.run ∧
      loc'.cache = loc.cache ∧ loc'.uniqueId = loc.uniqueId ∧
      (∀ c ∈ graphConsequents net,
        alookup loc'.out c.lbl = some (alookup sh.consOut (c.vid, s))) ∧
      (∀ l, l ∉ (graphConsequents net).map (·.lbl) →
        alookup loc'.out l = alookup loc.out l) := by
  have hcond : (loc.cache && loc.calculated.contains loc.uniqueId) = true := by
    rw [hc]
    simpa using List.elem_iff.2 hhit
  have hfields := utcFold_fields s (graphAntecedents net) sh
  have hconsOut : (updateToCurrent net s sh).consOut = sh.consOut := by
    unfold updateToCurrent
    exact hfields.2.2.2.2.2
  refine ⟨(graphConsequents net).foldl (hitStep s (updateToCurrent net s sh)) loc,
    ?_, ?_, ?_, ?_, ?_, hconsOut, ?_, ?_, ?_, ?_, ?_, ?_⟩
  · simp only [compute, harr, Bool.false_eq_true, if_false, hcond, if_true]
  · unfold updateToCurrent; exact hfields.2.1
  · unfold updateToCurrent; exact hfields.2.2.2.1
  · unfold updateToCurrent; exact hfields.2.2.2.2.1
  · unfold updateToCurrent; exact hfields.2.2.1
  · exact (hitFold_fields s _ (graphConsequents net) loc).1
  · exact (hitFold_fields s _ (graphConsequents net) loc).2.1
  · exact (hitFold_fields s _ (graphConsequents net) loc).2.2.1
  · exact (hitFold_fields s _ (graphConsequents net) loc).2.2.2.2.2.2
  · intro c hcm
    rw [hitFold_out_mem s (updateToCurrent net s sh) (graphConsequents net) loc hlbl c hcm,
      hconsOut]
  · intro l hl
    exact hitFold_out_frame s _ (graphConsequents net) loc l hl

/-- Witness for C4 at a concrete one-rule network with a stored run. -/
theorem claim4_cache_hit_witness :
    c4loc.arrayInputs = false ∧ c4loc.cache = true ∧
    c4loc.uniqueId ∈ c4loc.calculated ∧
    (∃ loc',
      compute exNet exAcc exDfz 7 c4sh c4loc = (updateToCurrent exNet 7 c4sh, loc', none) ∧
      (updateToCurrent exNet 7 c4sh).memb = c4sh.memb ∧
      (updateToCurrent exNet 7 c4sh).firing = c4sh.firing ∧
      (updateToCurrent exNet 7 c4sh).activ = c4sh.activ ∧
      (updateToCurrent exNet 7 c4sh).cuts = c4sh.cuts ∧
      (updateToCurrent exNet 7 c4sh).consOut = c4sh.consOut ∧
      loc'.calculated = c4loc.calculated ∧ loc'.run = c4loc.run ∧
      loc'.cache = c4loc.cache ∧ loc'.uniqueId = c4loc.uniqueId ∧
      (∀ c ∈ graphConsequents exNet,
        alookup loc'.out c.lbl = some (alookup c4sh.consOut (c.vid, 7))) ∧
      (∀ l, l ∉ (graphConsequents exNet).map (·.lbl) →
        alookup loc'.out l = alookup c4loc.out l)) :=
  ⟨rfl, rfl, by decide,
    claim4_cache_hit exNet exAcc exDfz 7 c4sh c4loc rfl rfl (by decide) (by decide)⟩

/-! ### The defuzzification loop -/

theorem defuzzAll_loc_fields (dfz : Nat → List ℚ → List ℚ → ℚ) (s : Nat) :
    ∀ (cs : List FVar) (sh : SimState) (loc : SimLocal),
      (defuzzAll dfz s cs sh loc).2.1.calculated = loc.calculated ∧
      (defuzzAll dfz s cs sh loc).2.1.run = loc.run ∧
      (defuzzAll dfz s cs sh loc).2.1.cache = loc.cache ∧
      (defuzzAll dfz s cs sh loc).2.1.arrayInputs = loc.arrayInputs ∧
      (defuzzAll dfz s cs sh loc).2.1.clipToBounds = loc.clipToBounds ∧
      (defuzzAll dfz s cs sh loc).2.1.flushAfterRun = loc.flushAfterRun ∧
      (defuzzAll dfz s cs sh loc).2.1.uniqueId = loc.uniqueId := by
  intro cs
  induction cs with
  | nil => intro sh loc; exact ⟨rfl, rfl, rfl, rfl, rfl, rfl, rfl⟩
  | cons c rest ih =>
    intro sh loc
    rcases hd : defuzzCVC dfz c s sh with e | v
    · simp [defuzzAll, hd]
    · simp only [defuzzAll, hd]
      exact ih _ _

theorem defuzzAll_out_frame (dfz : Nat → List ℚ → List ℚ → ℚ) (s : Nat) :
    ∀ (cs : List FVar) (sh : SimState) (loc : SimLocal) (l : String),
      l ∉ cs.map (·.lbl) →
      alookup ((defuzzAll dfz s cs sh loc).2.1.out) l = alookup loc.out l := by
  intro cs
  induction cs with
  | nil => intro sh loc l _; rfl
  | cons c rest ih =>
    intro sh loc l hl
    simp only [List.map_cons, List.mem_cons] at hl
    push_neg at hl
    rcases hd : defuzzCVC dfz c s sh with e | v
    · simp only [defuzzAll, hd]
    · simp only [defuzzAll, hd]
      rw [ih _ _ l hl.2]
      exact alookup_aset_ne _ _ _ _ (fun he => hl.1 he.symm)

theorem defuzzAll_out_keeps (dfz : Nat → List ℚ → List ℚ → ℚ) (s : Nat) :
    ∀ (cs : List FVar) (sh : SimState) (loc : SimLocal) (l : String),
      (∃ v, alookup loc.out l = some (some v)) →
      ∃ v, alookup ((defuzzAll dfz s cs sh loc).2.1.out) l = some (some v) := by
  intro cs
  induction cs with
  | nil => intro sh loc l h; exact h
  | cons c rest ih =>
    intro sh loc l h
    rcases hd : defuzzCVC dfz c s sh with e | v
    · simp only [defuzzAll, hd]
      exact h
    · simp only [defuzzAll, hd]
      refine ih _ _ l ?_
      by_cases hc : c.lbl = l
      · exact ⟨v, by rw [← hc]; simpa using alookup_aset loc.out c.lbl (some v)⟩
      · rcases h with ⟨w, hw⟩
        exact ⟨w, by rw [alookup_aset_ne _ _ _ _ hc]; exact hw⟩

theorem defuzzAll_out_some (dfz : Nat → List ℚ → List ℚ → ℚ) (s : Nat) :
    ∀ (cs : List FVar) (sh sh' : SimState) (loc loc' : SimLocal),
      defuzzAll dfz s cs sh loc = (sh', loc', none) →
      ∀ c ∈ cs, ∃ v, alookup loc'.out c.lbl = some (some v) := by
  intro cs
  induction cs with
  | nil =>
    intro sh sh' loc loc' _ c hc
    simp at hc
  | cons c0 rest ih =>
    intro sh sh' loc loc' heq c hc
    rcases hd : defuzzCVC dfz c0 s sh with e | v
    · simp only [defuzzAll, hd] at heq
      simp at heq
    · simp only [defuzzAll, hd] at heq
      rcases List.mem_cons.1 hc with rfl | hc'
      · have h21 := congrArg (fun p : SimState × SimLocal × Option String => p.2.1) heq
        simp only [] at h21
        have hkeep := defuzzAll_out_keeps dfz s rest
          { sh with consOut := aset sh.consOut (c.vid, s) v }
          { loc with out := aset loc.out c.lbl (some v) } c.lbl
          ⟨v, by simpa using alookup_aset loc.out c.lbl (some v)⟩
        rw [h21] at hkeep
        exact hkeep
      · exact ih _ _ _ _ heq c hc'

/-! ### Clearing lemmas for _reset_simulation -/

theorem resetSim_loc (net : Network) (sh : SimState) (loc : SimLocal) :
    (resetSim net sh loc).2 = { loc with calculated := [], run := 0 } := rfl

theorem resetSim_memb_cleared (net : Network) (sh : SimState) (loc : SimLocal)
    (t : Nat) (ht : t ∈ netConsTids net ++ netAntTids net) (s' : Nat) :
    alookup (resetSim net sh loc).1.memb (t, s') = none := by
  show alookup (afilterK sh.memb
    (fun k => !((netConsTids net).contains k.1 || (netAntTids net).contains k.1)))
    (t, s') = none
  apply alookup_afilterK_neg
  rcases List.mem_append.1 ht with h | h
  · simp [h]
  · simp [h]

theorem resetSim_firing_cleared (net : Network) (sh : SimState) (loc : SimLocal)
    (rl : Nat) (hr : rl ∈ netRuleLabels net) (s' : Nat) :
    alookup (resetSim net sh loc).1.firing (rl, s') = none := by
  show alookup (afilterK sh.firing (fun k => !(netRuleLabels net).contains k.1))
    (rl, s') = none
  apply alookup_afilterK_neg
  simp [hr]

theorem resetSim_activ_cleared (net : Network) (sh : SimState) (loc : SimLocal)
    (k : Nat × Nat × Nat) (hr : k.1 ∈ netRuleLabels net) :
    alookup (resetSim net sh loc).1.activ k = none := by
  show alookup (afilterK sh.activ (fun k => !(netRuleLabels net).contains k.1))
    k = none
  apply alookup_afilterK_neg
  simp [hr]

theorem resetSim_consOut_cleared (net : Network) (sh : SimState) (loc : SimLocal)
    (w : Nat) (hw : w ∈ (graphConsequents net).map (·.vid)) (s' : Nat) :
    alookup (resetSim net sh loc).1.consOut (w, s') = none := by
  show alookup (afilterK sh.consOut
    (fun k => !((graphConsequents net).map (·.vid)).contains k.1)) (w, s') = none
  apply alookup_afilterK_neg
  simp [hw]

theorem resetSim_inputSim_cleared (net : Network) (sh : SimState) (loc : SimLocal)
    (w : Nat) (hw : w ∈ (graphAntecedents net).map (·.vid)) (s' : Nat) :
    alookup (resetSim net sh loc).1.inputSim (w, s') = none := by
  show alookup (afilterK sh.inputSim
    (fun k => !((graphAntecedents net).map (·.vid)).contains k.1)) (w, s') = none
  apply alookup_afilterK_neg
  simp [hw]

/-! ### Claim C9 -/

/-- C9: a completed compute() run that triggers the periodic eviction —
immediately when caching is disabled, or when the run counter reaches a
multiple of flush_after_run — clears all per-simulation intermediate state
of the network's nodes for every simulation keyed in the shared stores (term
memberships, rule firing strengths, activations, stored consequent outputs)
and empties the fingerprint history, while the crisp outputs in this
simulation's own output map are unaffected by the eviction: entries under
non-consequent labels keep their pre-call values, and every consequent label
holds the freshly computed crisp value. -/
theorem claim9_flush (net : Network) (accM : Nat → ℚ → ℚ → ℚ)
    (dfz : Nat → List ℚ → List ℚ → ℚ) (s : Nat) (sh sh' : SimState)
    (loc loc' : SimLocal)
    (harr : loc.arrayInputs = false)
    (hnohit : ¬ (loc.cache = true ∧ loc.uniqueId ∈ loc.calculated))
    (htrig : loc.cache = false ∨ (loc.run + 1) % loc.flushAfterRun = 0)
    (hcomp : compute net accM dfz s sh loc = (sh', loc', none)) :
    (∀ t ∈ netConsTids net ++ netAntTids net, ∀ s',
      alookup sh'.memb (t, s') = none) ∧
    (∀ rl ∈ netRuleLabels net, ∀ s', alookup sh'.firing (rl, s') = none) ∧
    (∀ k : Nat × Nat × Nat, k.1 ∈ netRuleLabels net →
      alookup sh'.activ k = none) ∧
    (∀ w ∈ (graphConsequents net).map (·.vid), ∀ s',
      alookup sh'.consOut (w, s') = none) ∧
    loc'.calculated = [] ∧
    (∀ l, l ∉ (graphConsequents net).map (·.lbl) →
      alookup loc'.out l = alookup loc.out l) ∧
    (∀ c ∈ graphConsequents net, ∃ v, alookup loc'.out c.lbl = some (some v)) := by
  have hcond : (loc.cache && loc.calculated.contains loc.uniqueId) = false := by
    cases hcache : loc.cache with
    | false => rfl
    | true =>
      have hnm : loc.uniqueId ∉ loc.calculated := fun hm => hnohit ⟨hcache, hm⟩
      simp [List.elem_iff, hnm]
  simp only [compute, harr, Bool.false_eq_true, if_false, hcond, if_true] at hcomp
  rcases hfz : fuzzAll s (graphAntecedents net) (updateToCurrent net s sh)
    with ⟨sh1, e1⟩
  cases e1 with
  | some e =>
    simp only [hfz] at hcomp
    simp at hcomp
  | none =>
  simp only [hfz] at hcomp
  rcases hro : ruleOrder net with e | order
  · simp only [hro] at hcomp
    simp at hcomp
  simp only [hro] at hcomp
  rcases hrr : runRules net accM order s sh1 with ⟨sh2, e2⟩
  cases e2 with
  | some e =>
    simp only [hrr] at hcomp
    simp at hcomp
  | none =>
  simp only [hrr] at hcomp
  rcases hdz : defuzzAll dfz s (graphConsequents net) sh2 loc with ⟨sh3, loc3, e3⟩
  cases e3 with
  | some e =>
    simp only [hdz] at hcomp
    simp at hcomp
  | none =>
  simp only [hdz] at hcomp
  have hl3 := defuzzAll_loc_fields dfz s (graphConsequents net) sh2 loc
  rw [hdz] at hl3
  have hout_frame : ∀ l, l ∉ (graphConsequents net).map (·.lbl) →
      alookup loc3.out l = alookup loc.out l := by
    intro l hl
    have := defuzzAll_out_frame dfz s (graphConsequents net) sh2 loc l hl
    rw [hdz] at this
    exact this
  have hout_some : ∀ c ∈ graphConsequents net,
      ∃ v, alookup loc3.out c.lbl = some (some v) :=
    defuzzAll_out_some dfz s (graphConsequents net) sh2 sh3 loc loc3 hdz
  cases hcache : loc.cache with
  | false =>
    have hc3 : loc3.cache = false := by rw [hl3.2.2.1, hcache]
    simp only [hc3, Bool.false_eq_true, if_false] at hcomp
    split at hcomp
    · simp only [Prod.mk.injEq] at hcomp
      obtain ⟨h1, h2, -⟩ := hcomp
      subst h1
      subst h2
      exact ⟨fun t ht s' => resetSim_memb_cleared net _ _ t ht s',
        fun rl hr s' => resetSim_firing_cleared net _ _ rl hr s',
        fun k hk => resetSim_activ_cleared net _ _ k hk,
        fun w hw s' => resetSim_consOut_cleared net _ _ w hw s',
        rfl, hout_frame, hout_some⟩
    · simp only [Prod.mk.injEq] at hcomp
      obtain ⟨h1, h2, -⟩ := hcomp
      subst h1
      subst h2
      exact ⟨fun t ht s' => resetSim_memb_cleared net _ _ t ht s',
        fun rl hr s' => resetSim_firing_cleared net _ _ rl hr s',
        fun k hk => resetSim_activ_cleared net _ _ k hk,
        fun w hw s' => resetSim_consOut_cleared net _ _ w hw s',
        rfl, hout_frame, hout_some⟩
  | true =>
    have hflush : (loc.run + 1) % loc.flushAfterRun = 0 := by
      rcases htrig with h | h
      · rw [hcache] at h
        exact absurd h (by simp)
      · exact h
    have hc3 : loc3.cache = true := by rw [hl3.2.2.1, hcache]
    simp only [hc3, if_true] at hcomp
    split at hcomp
    · simp only [Prod.mk.injEq] at hcomp
      obtain ⟨h1, h2, -⟩ := hcomp
      subst h1
      subst h2
      exact ⟨fun t ht s' => resetSim_memb_cleared net _ _ t ht s',
        fun rl hr s' => resetSim_firing_cleared net _ _ rl hr s',
        fun k hk => resetSim_activ_cleared net _ _ k hk,
        fun w hw s' => resetSim_consOut_cleared net _ _ w hw s',
        rfl, hout_frame, hout_some⟩
    · rename_i hnfl
      exfalso
      apply hnfl
      show (loc3.run + 1) % loc3.flushAfterRun = 0
      rw [hl3.2.1, hl3.2.2.2.2.2.1]
      exact hflush

/-- Fuzzification of a variable with at least one term succeeds and touches
only that variable's term memberships for this simulation. -/
theorem fuzz_ok (var : FVar) (s : Nat) (v : InVal) (sh : SimState)
    (hne : var.terms ≠ []) :
    ∃ sh2, fuzz var s v sh = (sh2, none) ∧
      sh2.inputCurrent = sh.inputCurrent ∧ sh2.inputSim = sh.inputSim ∧
      sh2.cuts = sh.cuts ∧ sh2.firing = sh.firing ∧ sh2.activ = sh.activ ∧
      sh2.consOut = sh.consOut ∧
      (∀ k : Nat × Nat, (k.2 ≠ s ∨ k.1 ∉ var.terms.map (·.tid)) →
        alookup sh2.memb k = alookup sh.memb k) := by
  have hemp : var.terms.isEmpty = false := by
    cases h : var.terms with
    | nil => exact absurd h hne
    | cons a b => rfl
  cases v with
  | lbl l =>
    have hf := membSetFold_fields s (fuzzLblStep s l) (fuzzLblStep_shape s l)
      var.terms sh
    exact ⟨var.terms.foldl (fuzzLblStep s l) sh, by simp [fuzz, hemp],
      hf.1, hf.2.1, hf.2.2.1, hf.2.2.2.1, hf.2.2.2.2.1, hf.2.2.2.2.2.1,
      hf.2.2.2.2.2.2⟩
  | num x =>
    have hf := membSetFold_fields s (fuzzNumStep s var.univ x)
      (fuzzNumStep_shape s var.univ x) var.terms sh
    exact ⟨var.terms.foldl (fuzzNumStep s var.univ x) sh, by simp [fuzz, hemp],
      hf.1, hf.2.1, hf.2.2.1, hf.2.2.2.1, hf.2.2.2.2.1, hf.2.2.2.2.2.1,
      hf.2.2.2.2.2.2⟩

/-- The input-check-and-fuzzify loop stops with the missing-input error at
the first antecedent without an input, after having fuzzified exactly the
antecedents before it. -/
theorem fuzzAll_missing (s : Nat) :
    ∀ (pre : List FVar) (miss : FVar) (post : List FVar) (sh : SimState),
      (∀ a ∈ pre, (alookup sh.inputSim (a.vid, s)).isSome ∧ a.terms ≠ []) →
      alookup sh.inputSim (miss.vid, s) = none →
      ∃ sh', fuzzAll s (pre ++ miss :: post) sh = (sh', some missingMsg) ∧
        sh'.inputCurrent = sh.inputCurrent ∧ sh'.inputSim = sh.inputSim ∧
        sh'.cuts = sh.cuts ∧ sh'.firing = sh.firing ∧ sh'.activ = sh.activ ∧
        sh'.consOut = sh.consOut ∧
        (∀ k : Nat × Nat,
          (k.2 ≠ s ∨ k.1 ∉ pre.flatMap (fun a => a.terms.map (·.tid))) →
          alookup sh'.memb k = alookup sh.memb k) := by
  intro pre
  induction pre with
  | nil =>
    intro miss post sh _ hnone
    refine ⟨sh, ?_, rfl, rfl, rfl, rfl, rfl, rfl, fun k _ => rfl⟩
    simp only [List.nil_append, fuzzAll, hnone]
  | cons a rest ih =>
    intro miss post sh hpre hnone
    obtain ⟨hsome, hterms⟩ := hpre a (List.mem_cons_self a rest)
    rcases hv : alookup sh.inputSim (a.vid, s) with _ | v
    · rw [hv] at hsome
      simp at hsome
    obtain ⟨sh2, hfz, f1, f2, f3, f4, f5, f6, fmemb⟩ := fuzz_ok a s v sh hterms
    have hpre' : ∀ b ∈ rest,
        (alookup sh2.inputSim (b.vid, s)).isSome ∧ b.terms ≠ [] := by
      intro b hb
      rw [f2]
      exact hpre b (List.mem_cons_of_mem a hb)
    have hnone' : alookup sh2.inputSim (miss.vid, s) = none := by
      rw [f2]
      exact hnone
    obtain ⟨sh', hfa, g1, g2, g3, g4, g5, g6, gmemb⟩ := ih miss post sh2 hpre' hnone'
    refine ⟨sh', ?_, g1.trans f1, g2.trans f2, g3.trans f3, g4.trans f4,
      g5.trans f5, g6.trans f6, ?_⟩
    · show fuzzAll s ((a :: rest) ++ miss :: post) sh = (sh', some missingMsg)
      simp only [List.cons_append, fuzzAll, hv, hfz]
      exact hfa
    · intro k hk
      have hsplit : (k.2 ≠ s) ∨ (k.1 ∉ a.terms.map (·.tid) ∧
          k.1 ∉ rest.flatMap (fun b => b.terms.map (·.tid))) := by
        rcases hk with h | h
        · exact Or.inl h
        · refine Or.inr ⟨fun hm => h ?_, fun hm => h ?_⟩
          · rw [List.flatMap_cons]
            exact List.mem_append.2 (Or.inl hm)
          · rw [List.flatMap_cons]
            exact List.mem_append.2 (Or.inr hm)
      rcases hsplit with h | ⟨h1, h2⟩
      · rw [gmemb k (Or.inl h), fmemb k (Or.inl h)]
      · rw [gmemb k (Or.inr h2), fmemb k (Or.inr h1)]

/-! ### Claim C8 -/

/-- C8 counterexample: on a network with two Antecedents where only the
first has an input, the failed compute() raises the missing-input error but
has ALREADY fuzzified the first antecedent, changing its stored term
membership from undefined to a value — contradicting the claim that no term
membership value is changed by the failed call. -/
theorem claim8_counterexample :
    (compute c8net exAcc exDfz 7 c8sh c8loc).2.2 = some missingMsg ∧
    alookup c8sh.memb (2, 7) = none ∧
    alookup (compute c8net exAcc exDfz 7 c8sh c8loc).1.memb (2, 7)
      = some (mkRat 3 10) := by
  exact ⟨by decide, rfl, by decide⟩

/-- C8 (amended): if some Antecedent lacks an input at compute() time, the
call fails with the missing-input error and the simulation's local state is
untouched; no rule firing strength, activation, cut or stored consequent
output changes; and term memberships are unchanged EXCEPT those of the
antecedent variables preceding the first missing-input antecedent in graph
iteration order, which are re-fuzzified before the error is raised (the
source interleaves the missing-input check with fuzzification). -/
theorem claim8_missing_input_amended (net : Network) (accM : Nat → ℚ → ℚ → ℚ)
    (dfz : Nat → List ℚ → List ℚ → ℚ) (s : Nat) (sh : SimState) (loc : SimLocal)
    (pre : List FVar) (miss : FVar) (post : List FVar)
    (harr : loc.arrayInputs = false)
    (hnohit : ¬ (loc.cache = true ∧ loc.uniqueId ∈ loc.calculated))
    (hsplit : graphAntecedents net = pre ++ miss :: post)
    (hpre : ∀ a ∈ pre, (alookup sh.inputCurrent a.vid).isSome ∧ a.terms ≠ [])
    (hnone : alookup sh.inputCurrent miss.vid = none) :
    ∃ sh',
      compute net accM dfz s sh loc = (sh', loc, some missingMsg) ∧
      sh'.firing = sh.firing ∧ sh'.activ = sh.activ ∧ sh'.cuts = sh.cuts ∧
      sh'.consOut = sh.consOut ∧
      (∀ k : Nat × Nat,
        (k.2 ≠ s ∨ k.1 ∉ pre.flatMap (fun a => a.terms.map (·.tid))) →
        alookup sh'.memb k = alookup sh.memb k) := by
  have hcond : (loc.cache && loc.calculated.contains loc.uniqueId) = false := by
    cases hcache : loc.cache with
    | false => rfl
    | true =>
      have hnm : loc.uniqueId ∉ loc.calculated := fun hm => hnohit ⟨hcache, hm⟩
      simp [List.elem_iff, hnm]
  have hfields := utcFold_fields s (graphAntecedents net) sh
  have hpre0 : ∀ a ∈ pre,
      (alookup (updateToCurrent net s sh).inputSim (a.vid, s)).isSome
        ∧ a.terms ≠ [] := by
    intro a ha
    have hmem : a ∈ graphAntecedents net := by
      rw [hsplit]
      exact List.mem_append.2 (Or.inl ha)
    have := utcFold_inputSim_mem s (graphAntecedents net) sh a.vid ⟨a, hmem, rfl⟩
    constructor
    · show (alookup ((graphAntecedents net).foldl (utcStep s) sh).inputSim
        (a.vid, s)).isSome
      rw [this]
      exact (hpre a ha).1
    · exact (hpre a ha).2
  have hnone0 : alookup (updateToCurrent net s sh).inputSim (miss.vid, s) = none := by
    have hmem : miss ∈ graphAntecedents net := by
      rw [hsplit]
      exact List.mem_append.2 (Or.inr (List.mem_cons_self miss post))
    show alookup ((graphAntecedents net).foldl (utcStep s) sh).inputSim
      (miss.vid, s) = none
    rw [utcFold_inputSim_mem s (graphAntecedents net) sh miss.vid ⟨miss, hmem, rfl⟩]
    exact hnone
  obtain ⟨shP, hfa, p1, p2, p3, p4, p5, p6, pmemb⟩ :=
    fuzzAll_missing s pre miss post (updateToCurrent net s sh) hpre0 hnone0
  refine ⟨shP, ?_, ?_, ?_, ?_, ?_, ?_⟩
  · simp only [compute, harr, Bool.false_eq_true, if_false, hcond, if_true]
    rw [hsplit, hfa]
  · rw [p4]
    unfold updateToCurrent
    exact hfields.2.2.2.1
  · rw [p5]
    unfold updateToCurrent
    exact hfields.2.2.2.2.1
  · rw [p3]
    unfold updateToCurrent
    exact hfields.2.2.1
  · rw [p6]
    unfold updateToCurrent
    exact hfields.2.2.2.2.2
  · intro k hk
    rw [pmemb k hk]
    show alookup ((graphAntecedents net).foldl (utcStep s) sh).memb k
      = alookup sh.memb k
    rw [hfields.2.1]

/-- Witness for the amended C8 at the concrete two-antecedent network. -/
theorem claim8_missing_input_amended_witness :
    (compute c8net exAcc exDfz 7 c8sh c8loc).2.2 = some missingMsg ∧
    (compute c8net exAcc exDfz 7 c8sh c8loc).1.firing = c8sh.firing ∧
    (compute c8net exAcc exDfz 7 c8sh c8loc).1.activ = c8sh.activ ∧
    (compute c8net exAcc exDfz 7 c8sh c8loc).1.consOut = c8sh.consOut ∧
    alookup (compute c8net exAcc exDfz 7 c8sh c8loc).1.memb (4, 7)
      = alookup c8sh.memb (4, 7) := by
  obtain ⟨sh', hc, hf, ha, hcu, hco, hm⟩ :=
    claim8_missing_input_amended c8net exAcc exDfz 7 c8sh c8loc
      [exTemp] exService [] rfl (by decide) (by decide) (by decide) (by decide)
  rw [hc]
  exact ⟨rfl, hf, ha, hco, hm (4, 7) (Or.inr (by decide))⟩

/-- Witness for C9: one successful run with caching disabled on the example
network clears the shared stores and keeps the output map. -/
theorem claim9_flush_witness :
    c9loc1.cache = false ∧
    (compute exNet exAcc exDfz 7 c9sh1 c9loc1).2.2 = none ∧
    ((∀ t ∈ netConsTids exNet ++ netAntTids exNet, ∀ s',
      alookup (compute exNet exAcc exDfz 7 c9sh1 c9loc1).1.memb (t, s') = none) ∧
    (∀ rl ∈ netRuleLabels exNet, ∀ s',
      alookup (compute exNet exAcc exDfz 7 c9sh1 c9loc1).1.firing (rl, s') = none) ∧
    (∀ k : Nat × Nat × Nat, k.1 ∈ netRuleLabels exNet →
      alookup (compute exNet exAcc exDfz 7 c9sh1 c9loc1).1.activ k = none) ∧
    (∀ w ∈ (graphConsequents exNet).map (·.vid), ∀ s',
      alookup (compute exNet exAcc exDfz 7 c9sh1 c9loc1).1.consOut (w, s') = none) ∧
    (compute exNet exAcc exDfz 7 c9sh1 c9loc1).2.1.calculated = [] ∧
    (∀ l, l ∉ (graphConsequents exNet).map (·.lbl) →
      alookup (compute exNet exAcc exDfz 7 c9sh1 c9loc1).2.1.out l
        = alookup c9loc1.out l) ∧
    (∀ c ∈ graphConsequents exNet, ∃ v,
      alookup (compute exNet exAcc exDfz 7 c9sh1 c9loc1).2.1.out c.lbl
        = some (some v))) := by
  have h3 : (compute exNet exAcc exDfz 7 c9sh1 c9loc1).2.2 = none := by decide
  have hcomp : compute exNet exAcc exDfz 7 c9sh1 c9loc1
      = ((compute exNet exAcc exDfz 7 c9sh1 c9loc1).1,
         (compute exNet exAcc exDfz 7 c9sh1 c9loc1).2.1, none) := by
    rw [← h3]
  exact ⟨by decide, h3,
    claim9_flush exNet exAcc exDfz 7 c9sh1
      (compute exNet exAcc exDfz 7 c9sh1 c9loc1).1 c9loc1
      (compute exNet exAcc exDfz 7 c9sh1 c9loc1).2.1
      (by decide) (by decide) (Or.inl (by decide)) hcomp⟩

/-! ### Claim C5: view-preservation lemmas -/

theorem sameSimView_refl (s' : Nat) (sh : SimState) : sameSimView s' sh sh :=
  ⟨fun _ => rfl, fun _ => rfl, fun _ _ => rfl, fun _ => rfl, fun _ _ => rfl,
    fun _ => rfl⟩

theorem sameSimView_trans {s' : Nat} {a b c : SimState}
    (h1 : sameSimView s' a b) (h2 : sameSimView s' b c) : sameSimView s' a c :=
  ⟨fun w => (h1.1 w).trans (h2.1 w),
   fun t => (h1.2.1 t).trans (h2.2.1 t),
   fun t rl => (h1.2.2.1 t rl).trans (h2.2.2.1 t rl),
   fun rl => (h1.2.2.2.1 rl).trans (h2.2.2.2.1 rl),
   fun rl t => (h1.2.2.2.2.1 rl t).trans (h2.2.2.2.2.1 rl t),
   fun w => (h1.2.2.2.2.2 w).trans (h2.2.2.2.2.2 w)⟩

theorem foldl_sameSimView {β : Type} (step : SimState → β → SimState) (s' : Nat)
    (h : ∀ a b, sameSimView s' (step a b) a) :
    ∀ (l : List β) (sh : SimState), sameSimView s' (l.foldl step sh) sh := by
  intro l
  induction l with
  | nil => intro sh; exact sameSimView_refl s' sh
  | cons b rest ih =>
    intro sh
    exact sameSimView_trans (ih (step sh b)) (h sh b)

theorem utcStep_other (s s' : Nat) (hne : s' ≠ s) (a : SimState) (v : FVar) :
    sameSimView s' (utcStep s a v) a := by
  unfold utcStep
  rcases alookup a.inputCurrent v.vid with _ | w
  · exact ⟨fun u => alookup_aerase_ne _ _ _
      (fun he => hne (congrArg Prod.snd he).symm),
      fun _ => rfl, fun _ _ => rfl, fun _ => rfl, fun _ _ => rfl, fun _ => rfl⟩
  · exact ⟨fun u => alookup_aset_ne _ _ _ _
      (fun he => hne (congrArg Prod.snd he).symm),
      fun _ => rfl, fun _ _ => rfl, fun _ => rfl, fun _ _ => rfl, fun _ => rfl⟩

theorem updateToCurrent_other (net : Network) (s s' : Nat) (hne : s' ≠ s)
    (sh : SimState) : sameSimView s' (updateToCurrent net s sh) sh := by
  unfold updateToCurrent
  exact foldl_sameSimView (utcStep s) s' (utcStep_other s s' hne)
    (graphAntecedents net) sh

theorem fuzzLblStep_other (s s' : Nat) (l : String) (hne : s' ≠ s)
    (a : SimState) (t : FTerm) : sameSimView s' (fuzzLblStep s l a t) a :=
  ⟨fun _ => rfl,
   fun u => alookup_aset_ne _ _ _ _ (fun he => hne (congrArg Prod.snd he).symm),
   fun _ _ => rfl, fun _ => rfl, fun _ _ => rfl, fun _ => rfl⟩

theorem fuzzNumStep_other (s s' : Nat) (xs : List ℚ) (x : ℚ) (hne : s' ≠ s)
    (a : SimState) (t : FTerm) : sameSimView s' (fuzzNumStep s xs x a t) a :=
  ⟨fun _ => rfl,
   fun u => alookup_aset_ne _ _ _ _ (fun he => hne (congrArg Prod.snd he).symm),
   fun _ _ => rfl, fun _ => rfl, fun _ _ => rfl, fun _ => rfl⟩

theorem fuzz_other (var : FVar) (s s' : Nat) (v : InVal) (sh : SimState)
    (hne : s' ≠ s) : sameSimView s' (fuzz var s v sh).1 sh := by
  unfold fuzz
  by_cases hemp : var.terms.isEmpty
  · simp only [hemp, if_true]
    exact sameSimView_refl _ _
  · simp only [hemp, Bool.false_eq_true, if_false]
    cases v with
    | lbl l =>
      exact foldl_sameSimView (fuzzLblStep s l) s'
        (fuzzLblStep_other s s' l hne) var.terms sh
    | num x =>
      exact foldl_sameSimView (fuzzNumStep s var.univ x) s'
        (fuzzNumStep_other s s' var.univ x hne) var.terms sh

theorem fuzzAll_other (s s' : Nat) (hne : s' ≠ s) :
    ∀ (l : List FVar) (sh : SimState),
      sameSimView s' (fuzzAll s l sh).1 sh := by
  intro l
  induction l with
  | nil => intro sh; exact sameSimView_refl _ _
  | cons a rest ih =>
    intro sh
    rcases hl : alookup sh.inputSim (a.vid, s) with _ | v
    · simp only [fuzzAll, hl]
      exact sameSimView_refl _ _
    · rcases hf : fuzz a s v sh with ⟨sh2, e⟩
      have hview : sameSimView s' sh2 sh := by
        have := fuzz_other a s s' v sh hne
        rw [hf] at this
        exact this
      cases e with
      | some e =>
        simp only [fuzzAll, hl, hf]
        exact hview
      | none =>
        simp only [fuzzAll, hl, hf]
        exact sameSimView_trans (ih sh2) hview

theorem activStep_other (r : FRule) (s s' : Nat) (f : ℚ) (hne : s' ≠ s)
    (a : SimState) (c : WeightedTerm) : sameSimView s' (activStep r s f a c) a :=
  ⟨fun _ => rfl, fun _ => rfl, fun _ _ => rfl, fun _ => rfl,
   fun rl t => alookup_aset_ne _ _ _ _
     (fun he => hne (congrArg (fun k : Nat × Nat × Nat => k.2.2) he).symm),
   fun _ => rfl⟩

theorem accumStep_other (net : Network) (accM : Nat → ℚ → ℚ → ℚ) (r : FRule)
    (s s' : Nat) (f : ℚ) (hne : s' ≠ s) (a : SimState) (c : WeightedTerm) :
    sameSimView s' (accumStep net accM r s f a c) a :=
  ⟨fun _ => rfl,
   fun t => alookup_aset_ne _ _ _ _
     (fun he => hne (congrArg Prod.snd he).symm),
   fun t rl => alookup_aset_ne _ _ _ _
     (fun he => hne (congrArg (fun k : Nat × Nat × Nat => k.2.1) he).symm),
   fun _ => rfl, fun _ _ => rfl, fun _ => rfl⟩

theorem firstClearStep_other (r0 : FRule) (s s' : Nat) (hne : s' ≠ s)
    (a : SimState) (c : WeightedTerm) :
    sameSimView s' (firstClearStep r0 s a c) a :=
  ⟨fun _ => rfl,
   fun t => alookup_aerase_ne _ _ _
     (fun he => hne (congrArg Prod.snd he).symm),
   fun _ _ => rfl, fun _ => rfl,
   fun rl t => alookup_aerase_ne _ _ _
     (fun he => hne (congrArg (fun k : Nat × Nat × Nat => k.2.2) he).symm),
   fun _ => rfl⟩

theorem computeRule_other (net : Network) (accM : Nat → ℚ → ℚ → ℚ) (r : FRule)
    (s s' : Nat) (hne : s' ≠ s) (sh : SimState) :
    sameSimView s' (computeRule net accM r s sh).1 sh := by
  unfold computeRule
  rcases evalAnt s sh r.ant with _ | f
  · exact sameSimView_refl _ _
  · have h1 : sameSimView s' ({ sh with firing := aset sh.firing (r.label, s) f }) sh :=
      ⟨fun _ => rfl, fun _ => rfl, fun _ _ => rfl,
       fun rl => alookup_aset_ne _ _ _ _
         (fun he => hne (congrArg Prod.snd he).symm),
       fun _ _ => rfl, fun _ => rfl⟩
    exact sameSimView_trans
      (sameSimView_trans
        (foldl_sameSimView (accumStep net accM r s f) s'
          (accumStep_other net accM r s s' f hne) r.cons _)
        (foldl_sameSimView (activStep r s f) s'
          (activStep_other r s s' f hne) r.cons _))
      h1

theorem runRulesGo_other (net : Network) (accM : Nat → ℚ → ℚ → ℚ)
    (s s' : Nat) (hne : s' ≠ s) :
    ∀ (l : List FRule) (sh : SimState),
      sameSimView s' (runRulesGo net accM s l sh).1 sh := by
  intro l
  induction l with
  | nil => intro sh; exact sameSimView_refl _ _
  | cons r rest ih =>
    intro sh
    unfold runRulesGo
    rcases hc : computeRule net accM r s sh with ⟨sh2, e⟩
    have hview : sameSimView s' sh2 sh := by
      have := computeRule_other net accM r s s' hne sh
      rw [hc] at this
      exact this
    cases e with
    | some e => exact hview
    | none => exact sameSimView_trans (ih sh2) hview

theorem runRules_other (net : Network) (accM : Nat → ℚ → ℚ → ℚ)
    (order : List FRule) (s s' : Nat) (hne : s' ≠ s) (sh : SimState) :
    sameSimView s' (runRules net accM order s sh).1 sh := by
  cases order with
  | nil => exact sameSimView_refl _ _
  | cons r0 rest =>
    unfold runRules
    exact sameSimView_trans
      (runRulesGo_other net accM s s' hne (r0 :: rest) _)
      (foldl_sameSimView (firstClearStep r0 s) s'
        (firstClearStep_other r0 s s' hne) r0.cons sh)

theorem defuzzAll_other (dfz : Nat → List ℚ → List ℚ → ℚ) (s s' : Nat)
    (hne : s' ≠ s) :
    ∀ (cs : List FVar) (sh : SimState) (loc : SimLocal),
      sameSimView s' (defuzzAll dfz s cs sh loc).1 sh := by
  intro cs
  induction cs with
  | nil => intro sh loc; exact sameSimView_refl _ _
  | cons c rest ih =>
    intro sh loc
    rcases hd : defuzzCVC dfz c s sh with e | v
    · simp only [defuzzAll, hd]
      exact sameSimView_refl _ _
    · simp only [defuzzAll, hd]
      refine sameSimView_trans (ih _ _) ?_
      exact ⟨fun _ => rfl, fun _ => rfl, fun _ _ => rfl, fun _ => rfl,
        fun _ _ => rfl,
        fun w => alookup_aset_ne _ _ _ _
          (fun he => hne (congrArg Prod.snd he).symm)⟩

theorem setInputRecord_other (net : Network) (s s' : Nat) (var : FVar)
    (v : InVal) (sh : SimState) (loc : SimLocal) (hne : s' ≠ s) :
    sameSimView s' (setInputRecord net s var v sh loc).1 sh := by
  have h1 : sameSimView s'
      ({ sh with inputCurrent := aset sh.inputCurrent var.vid v }) sh :=
    ⟨fun _ => rfl, fun _ => rfl, fun _ _ => rfl, fun _ => rfl, fun _ _ => rfl,
      fun _ => rfl⟩
  exact sameSimView_trans (updateToCurrent_other net s s' hne _) h1

theorem setInput_other (net : Network) (s s' : Nat) (key : String) (v : InVal)
    (sh : SimState) (loc : SimLocal) (hne : s' ≠ s)
    (harr : loc.arrayInputs = false) :
    sameSimView s' (setInput net s key v sh loc).1 sh := by
  rcases hfind : (graphAntecedents net).find? (fun a => a.lbl = key) with _ | var
  · simp only [setInput, hfind]
    exact sameSimView_refl _ _
  · cases v with
    | lbl l =>
      simp only [setInput, hfind]
      exact setInputRecord_other net s s' var (.lbl l) sh loc hne
    | num x =>
      simp only [setInput, hfind, harr, Bool.false_eq_true, if_false]
      by_cases h1 : x > qMax var.univ
      · simp only [h1, if_true]
        by_cases hclip : loc.clipToBounds
        · simp only [hclip, if_true]
          exact setInputRecord_other net s s' var _ sh loc hne
        · simp only [hclip, Bool.false_eq_true, if_false]
          exact sameSimView_refl _ _
      · simp only [h1, if_false]
        by_cases h2 : x < qMin var.univ
        · simp only [h2, if_true]
          by_cases hclip : loc.clipToBounds
          · simp only [hclip, if_true]
            exact setInputRecord_other net s s' var _ sh loc hne
          · simp only [hclip, Bool.false_eq_true, if_false]
            exact sameSimView_refl _ _
        · simp only [h2, if_false]
          exact setInputRecord_other net s s' var _ sh loc hne

theorem compute_other (net : Network) (accM : Nat → ℚ → ℚ → ℚ)
    (dfz : Nat → List ℚ → List ℚ → ℚ) (s s' : Nat) (sh : SimState)
    (loc : SimLocal) (shf : SimState) (locf : SimLocal) (ef : Option String)
    (hne : s' ≠ s) (harr : loc.arrayInputs = false)
    (hcache : loc.cache = true)
    (hnoflush : (loc.run + 1) % loc.flushAfterRun ≠ 0)
    (hcomp : compute net accM dfz s sh loc = (shf, locf, ef)) :
    sameSimView s' shf sh := by
  have h0 : sameSimView s' (updateToCurrent net s sh) sh :=
    updateToCurrent_other net s s' hne sh
  simp only [compute, harr, Bool.false_eq_true, if_false] at hcomp
  by_cases hhit : (loc.cache && loc.calculated.contains loc.uniqueId) = true
  · simp only [hhit, if_true] at hcomp
    injection hcomp with ha hb
    rw [← ha]
    exact h0
  · simp only [Bool.not_eq_true] at hhit
    simp only [hhit, Bool.false_eq_true, if_false] at hcomp
    rcases hfz : fuzzAll s (graphAntecedents net) (updateToCurrent net s sh)
      with ⟨sh1, e1⟩
    have h1 : sameSimView s' sh1 sh := by
      have := fuzzAll_other s s' hne (graphAntecedents net)
        (updateToCurrent net s sh)
      rw [hfz] at this
      exact sameSimView_trans this h0
    cases e1 with
    | some e =>
      simp only [hfz] at hcomp
      injection hcomp with ha hb
      rw [← ha]
      exact h1
    | none =>
    simp only [hfz] at hcomp
    rcases hro : ruleOrder net with e | order
    · simp only [hro] at hcomp
      injection hcomp with ha hb
      rw [← ha]
      exact h1
    simp only [hro] at hcomp
    rcases hrr : runRules net accM order s sh1 with ⟨sh2, e2⟩
    have h2 : sameSimView s' sh2 sh := by
      have := runRules_other net accM order s s' hne sh1
      rw [hrr] at this
      exact sameSimView_trans this h1
    cases e2 with
    | some e =>
      simp only [hrr] at hcomp
      injection hcomp with ha hb
      rw [← ha]
      exact h2
    | none =>
    simp only [hrr] at hcomp
    rcases hdz : defuzzAll dfz s (graphConsequents net) sh2 loc
      with ⟨sh3, loc3, e3⟩
    have h3 : sameSimView s' sh3 sh := by
      have := defuzzAll_other dfz s s' hne (graphConsequents net) sh2 loc
      rw [hdz] at this
      exact sameSimView_trans this h2
    cases e3 with
    | some e =>
      simp only [hdz] at hcomp
      injection hcomp with ha hb
      rw [← ha]
      exact h3
    | none =>
    simp only [hdz] at hcomp
    have hl3 := defuzzAll_loc_fields dfz s (graphConsequents net) sh2 loc
    rw [hdz] at hl3
    have hc3 : loc3.cache = true := by rw [hl3.2.2.1]; exact hcache
    have hcond2 : ¬ ((loc3.run + 1) % loc3.flushAfterRun = 0) := by
      rw [hl3.2.1, hl3.2.2.2.2.2.1]
      exact hnoflush
    simp only [hc3, if_true] at hcomp
    split at hcomp
    · rename_i hx
      exact absurd
        (show (loc3.run + 1) % loc3.flushAfterRun = 0 from hx) hcond2
    · injection hcomp with ha hb
      rw [← ha]
      exact h3

/-! ### Claim C5 -/

/-- C5 counterexample: a reset() issued through one simulation clears the
shared stores wholesale, so a second simulation's stored term membership and
input vanish — contradicting the claim that reset() of one context leaves
the other context's stored inputs, term memberships, firing strengths and
outputs unchanged. -/
theorem claim5_counterexample :
    alookup c5sh.memb (6, 2) = some (mkRat 1 2) ∧
    alookup (resetSim exNet c5sh exLoc).1.memb (6, 2) = none ∧
    alookup c5sh.inputSim (0, 2) = some (.num 3) ∧
    alookup (resetSim exNet c5sh exLoc).1.inputSim (0, 2) = none ∧
    alookup c5sh.firing (0, 2) = some (mkRat 1 2) ∧
    alookup (resetSim exNet c5sh exLoc).1.firing (0, 2) = none := by
  decide

/-- C5 (amended): set_input on one context (with no prior array inputs)
never changes another context's keyed evaluation state, and compute() with
caching enabled and no flush boundary likewise leaves every other context's
keyed inputs, memberships, cuts, firings, activations and stored outputs
untouched; but reset() issued through one context clears the shared
per-node stores outright, erasing the other context's stored inputs, term
memberships, firing strengths and outputs as well. -/
theorem claim5_isolation_amended (net : Network) (accM : Nat → ℚ → ℚ → ℚ)
    (dfz : Nat → List ℚ → List ℚ → ℚ) (s s' : Nat) (key : String) (v : InVal)
    (sh : SimState) (loc : SimLocal) (hne : s' ≠ s)
    (harr : loc.arrayInputs = false) :
    sameSimView s' (setInput net s key v sh loc).1 sh ∧
    (loc.cache = true → (loc.run + 1) % loc.flushAfterRun ≠ 0 →
      sameSimView s' (compute net accM dfz s sh loc).1 sh) ∧
    (∀ t ∈ netConsTids net ++ netAntTids net,
      alookup (resetSim net sh loc).1.memb (t, s') = none) ∧
    (∀ rl ∈ netRuleLabels net,
      alookup (resetSim net sh loc).1.firing (rl, s') = none) ∧
    (∀ w ∈ (graphAntecedents net).map (·.vid),
      alookup (resetSim net sh loc).1.inputSim (w, s') = none) ∧
    (∀ w ∈ (graphConsequents net).map (·.vid),
      alookup (resetSim net sh loc).1.consOut (w, s') = none) :=
  ⟨setInput_other net s s' key v sh loc hne harr,
   fun hc hf => compute_other net accM dfz s s' sh loc
     (compute net accM dfz s sh loc).1 (compute net accM dfz s sh loc).2.1
     (compute net accM dfz s sh loc).2.2 hne harr hc hf rfl,
   fun t ht => resetSim_memb_cleared net sh loc t ht s',
   fun rl hr => resetSim_firing_cleared net sh loc rl hr s',
   fun w hw => resetSim_inputSim_cleared net sh loc w hw s',
   fun w hw => resetSim_consOut_cleared net sh loc w hw s'⟩

/-- Witness for the amended C5 at two concrete contexts (ids 1 and 2). -/
theorem claim5_isolation_amended_witness :
    alookup (setInput exNet 1 "temp" (.num 3) c5sh exLoc).1.memb (6, 2)
      = alookup c5sh.memb (6, 2) ∧
    alookup (compute exNet exAcc exDfz 1 c5sh exLoc).1.memb (6, 2)
      = alookup c5sh.memb (6, 2) ∧
    alookup (resetSim exNet c5sh exLoc).1.memb (6, 2) = none := by
  obtain ⟨hset, hcomp, hmemb, hfir, hinp, hout⟩ :=
    claim5_isolation_amended exNet exAcc exDfz 1 2 "temp" (.num 3) c5sh exLoc
      (by decide) rfl
  exact ⟨hset.2.1 6, (hcomp rfl (by decide)).2.1 6, hmemb 6 (by decide)⟩

/-! ### Claim C2: defuzz applies the method to the extended universe and the
combined curve -/

theorem chain_zip_fst (xs ys : List ℚ) (h : xs.Chain' (· < ·)) :
    (xs.zip ys).Chain' (fun p q => p.1 < q.1) := by
  rw [List.chain'_iff_get] at h ⊢
  intro i hi
  have hlen : (xs.zip ys).length = min xs.length ys.length := List.length_zip xs ys
  have hx : i < xs.length - 1 := by
    rw [hlen] at hi
    omega
  have := h i hx
  simp only [List.get_eq_getElem, List.getElem_zip] at this ⊢
  exact this

theorem interpPts_nonneg (x : ℚ) :
    ∀ (pts : List (ℚ × ℚ)), pts.Chain' (fun p q => p.1 < q.1) →
      (∀ p ∈ pts, 0 ≤ p.2) → 0 ≤ interpPts x pts := by
  intro pts
  induction pts with
  | nil =>
    intro _ _
    simp [interpPts]
  | cons p0 tl ih =>
    intro hch hnn
    cases tl with
    | nil =>
      rcases p0 with ⟨x0, y0⟩
      simp only [interpPts]
      split
      · exact hnn (x0, y0) (by simp)
      · exact le_refl 0
    | cons p1 tl2 =>
      rcases p0 with ⟨x0, y0⟩
      rcases p1 with ⟨x1, y1⟩
      have hy0 : 0 ≤ y0 := hnn (x0, y0) (by simp)
      have hy1 : 0 ≤ y1 := hnn (x1, y1) (by simp)
      have h01 : x0 < x1 := (List.chain'_cons.1 hch).1
      have hch2 : ((x1, y1) :: tl2).Chain' (fun p q => p.1 < q.1) :=
        (List.chain'_cons.1 hch).2
      simp only [interpPts]
      split
      · exact le_refl 0
      · rename_i hx0
        split
        · rename_i hx1
          split
          · exact hy0
          · rename_i hxne
            rw [qAdd_eq, qDiv_eq, qMul_eq, qSub_eq, qSub_eq, qSub_eq]
            have hx0' : x0 < x := lt_of_le_of_ne (not_lt.1 hx0) (Ne.symm hxne)
            have hdpos : (0:ℚ) < x1 - x0 := by linarith
            have key : y0 + (x - x0) * (y1 - y0) / (x1 - x0)
                = (y0 * (x1 - x) + y1 * (x - x0)) / (x1 - x0) := by
              field_simp
              ring
            rw [key]
            apply div_nonneg _ (le_of_lt hdpos)
            have h1 : 0 ≤ y0 * (x1 - x) := mul_nonneg hy0 (by linarith)
            have h2 : 0 ≤ y1 * (x - x0) := mul_nonneg hy1 (by linarith)
            linarith
        · exact ih hch2 (fun p hp => hnn p (List.mem_cons_of_mem _ hp))

theorem interpMf_nonneg (xs mf : List ℚ) (x : ℚ)
    (hch : xs.Chain' (· < ·)) (hmf : ∀ y ∈ mf, 0 ≤ y) :
    0 ≤ interpMf xs mf x := by
  apply interpPts_nonneg x (xs.zip mf) (chain_zip_fst xs mf hch)
  intro p hp
  rcases p with ⟨a, b⟩
  exact hmf b (List.of_mem_zip hp).2

theorem zipWith_max_zero_map (l : List ℚ) (g : ℚ → ℚ)
    (h : ∀ x ∈ l, 0 ≤ g x) :
    List.zipWith max (l.map fun _ => (0:ℚ)) (l.map g) = l.map g := by
  induction l with
  | nil => rfl
  | cons a t ih =>
    simp only [List.map_cons, List.zipWith_cons_cons]
    rw [max_eq_right (h a (List.mem_cons_self a t)),
      ih (fun x hx => h x (List.mem_cons_of_mem a hx))]

theorem definedTerms_mem_terms {var : FVar} {s : Nat} {sh : SimState}
    {tc : FTerm × ℚ} (h : tc ∈ definedTerms var s sh) : tc.1 ∈ var.terms := by
  rcases List.mem_filterMap.1 h with ⟨t, ht, hmap⟩
  rcases Option.map_eq_some'.1 hmap with ⟨c, _, hc⟩
  rw [← hc]
  exact ht

/-- C2 (confirmed): for a variable with at least one term holding a defined
membership value, defuzz() returns the configured defuzzification method
applied to the extended universe (the universe unioned with every cut-level
crossing of a defined term's curve) and the combined curve (the pointwise
maximum over the defined terms of the pointwise minimum of the term's cut
level and its re-interpolated curve).  The universe is assumed strictly
increasing and membership samples and cut levels nonnegative, as produced by
the library's variables and fuzzification. -/
theorem claim2_defuzz (dfz : Nat → List ℚ → List ℚ → ℚ) (var : FVar) (s : Nat)
    (sh : SimState) (hdef : definedTerms var s sh ≠ [])
    (huniv : var.univ.Chain' (· < ·))
    (hmf : ∀ t ∈ var.terms, ∀ y ∈ t.mf, 0 ≤ y)
    (hcut : ∀ tc ∈ definedTerms var s sh, 0 ≤ tc.2) :
    defuzzCVC dfz var s sh
      = .ok (dfz var.vid (specExtUniverse var s sh)
          (specCombinedCurve var s sh)) := by
  rcases hd : definedTerms var s sh with _ | ⟨tc0, rest⟩
  · exact absurd hd hdef
  have hmem0 : tc0 ∈ definedTerms var s sh := by
    rw [hd]
    exact List.mem_cons_self tc0 rest
  have hg0 : ∀ x ∈ sortedUnion var.univ
      ((tc0 :: rest).flatMap fun tc => crossings tc.2 (var.univ.zip tc.1.mf)),
      0 ≤ min tc0.2 (interpMf var.univ tc0.1.mf x) := by
    intro x hx
    exact le_min (hcut tc0 hmem0)
      (interpMf_nonneg var.univ tc0.1.mf x huniv
        (hmf tc0.1 (definedTerms_mem_terms hmem0)))
  simp only [defuzzCVC, findMemberships, specExtUniverse, specCombinedCurve,
    specCutCurve, hd, List.map_cons, List.isEmpty_cons, Bool.false_eq_true,
    if_false, List.foldl_cons, List.foldl_map]
  rw [zipWith_max_zero_map
    (sortedUnion var.univ
      ((tc0 :: rest).flatMap fun tc => crossings tc.2 (var.univ.zip tc.1.mf)))
    (fun x => min tc0.2 (interpMf var.univ tc0.1.mf x)) hg0]

/-- Witness for C2 at a two-term variable with both memberships defined. -/
theorem claim2_defuzz_witness :
    definedTerms exTemp 9 c2sh ≠ [] ∧
    defuzzCVC exDfz exTemp 9 c2sh
      = .ok (exDfz exTemp.vid (specExtUniverse exTemp 9 c2sh)
          (specCombinedCurve exTemp 9 c2sh)) :=
  ⟨by decide, claim2_defuzz exDfz exTemp 9 c2sh (by decide)
    (by
      show List.Chain' (· < ·) [(0:ℚ), 10]
      exact List.chain'_pair.2 (by decide))
    (by decide) (by decide)⟩

/-! ### Claim C1: graph membership characterisations -/

theorem foldl_composeG_nodes (F : FRule → Graph) :
    ∀ (l : List FRule) (g : Graph),
      (l.foldl (fun g r => composeG g (F r)) g).nodes
        = g.nodes ++ l.flatMap (fun r => (F r).nodes) := by
  intro l
  induction l with
  | nil => intro g; simp
  | cons a t ih =>
    intro g
    rw [List.foldl_cons, ih]
    simp [composeG, List.append_assoc]

theorem foldl_composeG_edges (F : FRule → Graph) :
    ∀ (l : List FRule) (g : Graph),
      (l.foldl (fun g r => composeG g (F r)) g).edges
        = g.edges ++ l.flatMap (fun r => (F r).edges) := by
  intro l
  induction l with
  | nil => intro g; simp
  | cons a t ih =>
    intro g
    rw [List.foldl_cons, ih]
    simp [composeG, List.append_assoc]

theorem mem_systemGraph_nodes {net : Network} {n : GNode} :
    n ∈ (systemGraph net).nodes
      ↔ ∃ r ∈ net.rules, n ∈ (ruleGraph net r).nodes := by
  rw [systemGraph, foldl_composeG_nodes]
  simp [List.mem_flatMap]

theorem mem_systemGraph_edges {net : Network} {e : GNode × GNode} :
    e ∈ (systemGraph net).edges
      ↔ ∃ r ∈ net.rules, e ∈ (ruleGraph net r).edges := by
  rw [systemGraph, foldl_composeG_edges]
  simp [List.mem_flatMap]

theorem mem_calcedOf_nodes {net : Network} {Y : List FRule} {n : GNode} :
    n ∈ (calcedOf net Y).nodes ↔
      n ∈ (initCalced net).nodes ∨ ∃ r ∈ Y, n ∈ (ruleGraph net r).nodes := by
  rw [calcedOf, foldl_composeG_nodes]
  simp [List.mem_flatMap]

theorem mem_calcedOf_edges {net : Network} {Y : List FRule} {e : GNode × GNode} :
    e ∈ (calcedOf net Y).edges ↔
      e ∈ (initCalced net).edges ∨ ∃ r ∈ Y, e ∈ (ruleGraph net r).edges := by
  rw [calcedOf, foldl_composeG_edges]
  simp [List.mem_flatMap]

theorem calcedOf_concat (net : Network) (Y : List FRule) (r : FRule) :
    calcedOf net (Y ++ [r]) = composeG (calcedOf net Y) (ruleGraph net r) := by
  rw [calcedOf, List.foldl_concat, calcedOf]

theorem mem_parentGraph_nodes {net : Network} {t : Nat} {n : GNode} :
    n ∈ (parentGraph net t).nodes ↔
      ∃ v, termParent net t = some v ∧
        (n = GNode.var v.vid ∨ ∃ ft ∈ v.terms, n = GNode.term ft.tid) := by
  rcases h : termParent net t with _ | v
  · simp [parentGraph, h]
  · simp [parentGraph, h, varGraph, eq_comm]

theorem mem_parentGraph_edges {net : Network} {t : Nat} {e : GNode × GNode} :
    e ∈ (parentGraph net t).edges ↔
      ∃ v, termParent net t = some v ∧
        ∃ ft ∈ v.terms, e = (GNode.var v.vid, GNode.term ft.tid) := by
  rcases h : termParent net t with _ | v
  · simp [parentGraph, h]
  · simp [parentGraph, h, varGraph, eq_comm]

theorem mem_ruleGraph_nodes {net : Network} {r : FRule} {n : GNode} :
    n ∈ (ruleGraph net r).nodes ↔
      (∃ t ∈ antLeaves r.ant, n = GNode.term t) ∨ n = GNode.rule r ∨
      (∃ t ∈ writes r, n = GNode.term t) ∨
      (∃ t ∈ touched r, n ∈ (parentGraph net t).nodes) := by
  simp [ruleGraph, List.mem_append, List.mem_flatMap, eq_comm]

theorem mem_ruleGraph_edges {net : Network} {r : FRule} {e : GNode × GNode} :
    e ∈ (ruleGraph net r).edges ↔
      (∃ t ∈ antLeaves r.ant, e = (GNode.term t, GNode.rule r)) ∨
      (∃ t ∈ writes r, e = (GNode.rule r, GNode.term t)) ∨
      (∃ t ∈ touched r, e ∈ (parentGraph net t).edges) := by
  simp [ruleGraph, List.mem_append, List.mem_flatMap, eq_comm]

theorem mem_initCalced_nodes {net : Network} {n : GNode} :
    n ∈ (initCalced net).nodes ↔
      ∃ a ∈ graphAntecedents net,
        (n = GNode.var a.vid ∨ ∃ ft ∈ a.terms, n = GNode.term ft.tid) := by
  simp [initCalced, List.mem_flatMap, eq_comm]

theorem mem_initCalced_edges {net : Network} {e : GNode × GNode} :
    e ∈ (initCalced net).edges ↔
      ∃ a ∈ graphAntecedents net,
        ∃ ft ∈ a.terms, e = (GNode.var a.vid, GNode.term ft.tid) := by
  simp [initCalced, List.mem_flatMap, eq_comm]

theorem graphAntecedents_sub {net : Network} {a : FVar}
    (h : a ∈ graphAntecedents net) : a ∈ net.vars ∧ a.antecedent = true := by
  rcases List.mem_filterMap.1 h with ⟨n, hn, hsome⟩
  cases n with
  | var vid =>
    rcases hf : net.vars.find? (fun v => v.vid = vid) with _ | v
    · simp [graphAntecedents, hf] at hsome
    · simp only [hf] at hsome
      by_cases hant : v.antecedent = true
      · simp only [hant, if_true, Option.some.injEq] at hsome
        subst hsome
        exact ⟨List.mem_of_find?_eq_some hf, hant⟩
      · simp [hant] at hsome
  | term t => simp at hsome
  | rule r => simp at hsome

theorem mem_graphAntecedents {net : Network} {v : FVar}
    (hvid : ∀ x ∈ net.vars, ∀ y ∈ net.vars, x.vid = y.vid → x = y)
    (hv : v ∈ net.vars) (hant : v.antecedent = true)
    (hnode : GNode.var v.vid ∈ (systemGraph net).nodes) :
    v ∈ graphAntecedents net := by
  apply List.mem_filterMap.2
  refine ⟨GNode.var v.vid, (mem_firstDedup _ _).2 hnode, ?_⟩
  rcases hf : net.vars.find? (fun w => w.vid = v.vid) with _ | w
  · exfalso
    rw [List.find?_eq_none] at hf
    exact hf v hv (by simp)
  · have hw : w = v := by
      apply hvid w (List.mem_of_find?_eq_some hf) v hv
      have := List.find?_some hf
      simpa using this
    subst hw
    simp only [hf, hant, if_true]

theorem rule_mem_ruleGraph_nodes {net : Network} {r x : FRule} :
    GNode.rule x ∈ (ruleGraph net r).nodes ↔ x = r := by
  constructor
  · intro h
    rcases mem_ruleGraph_nodes.1 h with ⟨t, _, ht⟩ | h2 | ⟨t, _, ht⟩ | ⟨t, _, ht⟩
    · exact absurd ht (by simp)
    · exact GNode.rule.inj h2
    · exact absurd ht (by simp)
    · rcases mem_parentGraph_nodes.1 ht with ⟨w, _, hw | ⟨ft, _, hft⟩⟩
      · exact absurd hw (by simp)
      · exact absurd hft (by simp)
  · rintro rfl
    exact mem_ruleGraph_nodes.2 (Or.inr (Or.inl rfl))

theorem mem_allRules {net : Network} {r : FRule} :
    r ∈ allRules net ↔ r ∈ net.rules := by
  constructor
  · intro h
    rcases List.mem_filterMap.1 h with ⟨n, hn, hsome⟩
    cases n with
    | rule x =>
      simp only [Option.some.injEq] at hsome
      subst hsome
      have hnode := (mem_firstDedup _ _).1 hn
      rcases mem_systemGraph_nodes.1 hnode with ⟨r'', hr'', hmem⟩
      rw [rule_mem_ruleGraph_nodes.1 hmem]
      exact hr''
    | var _ => simp at hsome
    | term _ => simp at hsome
  · intro h
    exact List.mem_filterMap.2 ⟨GNode.rule r,
      (mem_firstDedup _ _).2 (mem_systemGraph_nodes.2
        ⟨r, h, rule_mem_ruleGraph_nodes.2 rfl⟩), rfl⟩

theorem nodup_allRules (net : Network) : (allRules net).Nodup := by
  apply List.Nodup.filterMap _ (nodup_firstDedup _)
  intro a a' b hb hb'
  cases a with
  | rule x =>
    cases a' with
    | rule x' =>
      simp only [Option.mem_def, Option.some.injEq] at hb hb'
      rw [hb, hb']
    | var _ => simp at hb'
    | term _ => simp at hb'
  | var _ => simp at hb
  | term _ => simp at hb

theorem mem_predsIn {g : Graph} {p q : GNode} :
    q ∈ predsIn g p ↔ q ∈ g.nodes ∧ (q, p) ∈ g.edges := by
  rw [predsIn, List.mem_filter, mem_firstDedup]
  simp

theorem nodup_predsIn (g : Graph) (p : GNode) : (predsIn g p).Nodup :=
  (nodup_firstDedup _).filter _

theorem predCount_eq_of_mem_iff {g1 g2 : Graph} {p1 p2 : GNode}
    (h : ∀ q, q ∈ predsIn g1 p1 ↔ q ∈ predsIn g2 p2) :
    predCount g1 p1 = predCount g2 p2 := by
  rw [predCount, predCount]
  exact List.Perm.length_eq
    ((List.perm_ext_iff_of_nodup (nodup_predsIn _ _) (nodup_predsIn _ _)).2 h)

theorem predsIn_mem_iff_of_count {g1 g2 : Graph} {p1 p2 : GNode}
    (hsub : ∀ q, q ∈ predsIn g2 p2 → q ∈ predsIn g1 p1)
    (hcount : predCount g1 p1 = predCount g2 p2) :
    ∀ q, q ∈ predsIn g1 p1 ↔ q ∈ predsIn g2 p2 := by
  have h1 : (predsIn g2 p2).toFinset ⊆ (predsIn g1 p1).toFinset := by
    intro q hq
    rw [List.mem_toFinset] at hq ⊢
    exact hsub q hq
  have hcard : (predsIn g1 p1).toFinset.card ≤ (predsIn g2 p2).toFinset.card := by
    rw [List.toFinset_card_of_nodup (nodup_predsIn _ _),
        List.toFinset_card_of_nodup (nodup_predsIn _ _)]
    exact le_of_eq hcount
  have hEq : (predsIn g2 p2).toFinset = (predsIn g1 p1).toFinset :=
    Finset.eq_of_subset_of_card_le h1 hcard
  intro q
  constructor
  · intro hq
    have hq2 : q ∈ (predsIn g1 p1).toFinset := List.mem_toFinset.2 hq
    rw [← hEq] at hq2
    exact List.mem_toFinset.1 hq2
  · intro hq
    have hq2 : q ∈ (predsIn g2 p2).toFinset := List.mem_toFinset.2 hq
    rw [hEq] at hq2
    exact List.mem_toFinset.1 hq2

theorem termParent_mem {net : Network} {t : Nat} {v : FVar}
    (h : termParent net t = some v) : v ∈ net.vars :=
  List.mem_of_find?_eq_some h

theorem termParent_hasTid {net : Network} {t : Nat} {v : FVar}
    (h : termParent net t = some v) : ∃ ft ∈ v.terms, ft.tid = t := by
  have := List.find?_some h
  simpa [List.any_eq_true] using this

theorem termParent_unique {net : Network} {t : Nat} {pv v : FVar}
    (huniq : ∀ x ∈ net.vars, ∀ y ∈ net.vars, x ≠ y →
      ∀ ft ∈ x.terms, ∀ ft' ∈ y.terms, ft.tid ≠ ft'.tid)
    (hpv : termParent net t = some pv) (hv : v ∈ net.vars)
    (hhas : ∃ ft ∈ v.terms, ft.tid = t) : v = pv := by
  by_contra hne
  rcases hhas with ⟨ft, hfm, hft⟩
  rcases termParent_hasTid hpv with ⟨ft', hfm', hft'⟩
  exact huniq v hv pv (termParent_mem hpv) hne ft hfm ft' hfm'
    (by rw [hft, hft'])

theorem preds_term_allG {net : Network} {t : Nat} {pv : FVar}
    (huniq : ∀ x ∈ net.vars, ∀ y ∈ net.vars, x ≠ y →
      ∀ ft ∈ x.terms, ∀ ft' ∈ y.terms, ft.tid ≠ ft'.tid)
    (hpv : termParent net t = some pv)
    (htouch : ∃ r0 ∈ net.rules, t ∈ touched r0) :
    ∀ q, q ∈ predsIn (systemGraph net) (GNode.term t) ↔
      (q = GNode.var pv.vid ∨
        ∃ w ∈ net.rules, t ∈ writes w ∧ q = GNode.rule w) := by
  intro q
  constructor
  · intro hq
    rcases mem_predsIn.1 hq with ⟨_, hedge⟩
    rcases mem_systemGraph_edges.1 hedge with ⟨w, hw, hewg⟩
    rcases mem_ruleGraph_edges.1 hewg with ⟨t', _, he⟩ | ⟨t', ht', he⟩ |
      ⟨u, _, hpe⟩
    · exact absurd (congrArg Prod.snd he) (by simp)
    · have hq1 : q = GNode.rule w := congrArg Prod.fst he
      have ht2 : GNode.term t = GNode.term t' := congrArg Prod.snd he
      refine Or.inr ⟨w, hw, ?_, hq1⟩
      rw [GNode.term.inj ht2]
      exact ht'
    · rcases mem_parentGraph_edges.1 hpe with ⟨v, hv, ft, hfm, he⟩
      have hq1 : q = GNode.var v.vid := congrArg Prod.fst he
      have hft : ft.tid = t :=
        GNode.term.inj (congrArg Prod.snd he).symm
      have hvpv : v = pv :=
        termParent_unique huniq hpv (termParent_mem hv) ⟨ft, hfm, hft⟩
      rw [hvpv] at hq1
      exact Or.inl hq1
  · intro hq
    rcases htouch with ⟨r0, hr0, ht0⟩
    rcases termParent_hasTid hpv with ⟨ft, hfm, hft⟩
    rcases hq with rfl | ⟨w, hw, htw, rfl⟩
    · apply mem_predsIn.2
      constructor
      · exact mem_systemGraph_nodes.2 ⟨r0, hr0, mem_ruleGraph_nodes.2
          (Or.inr (Or.inr (Or.inr ⟨t, ht0,
            mem_parentGraph_nodes.2 ⟨pv, hpv, Or.inl rfl⟩⟩)))⟩
      · exact mem_systemGraph_edges.2 ⟨r0, hr0, mem_ruleGraph_edges.2
          (Or.inr (Or.inr ⟨t, ht0, mem_parentGraph_edges.2
            ⟨pv, hpv, ft, hfm, by rw [hft]⟩⟩))⟩
    · apply mem_predsIn.2
      constructor
      · exact mem_systemGraph_nodes.2 ⟨w, hw,
          rule_mem_ruleGraph_nodes.2 rfl⟩
      · exact mem_systemGraph_edges.2 ⟨w, hw, mem_ruleGraph_edges.2
          (Or.inr (Or.inl ⟨t, htw, rfl⟩))⟩

theorem preds_term_calced_sub {net : Network} {Z : List FRule} {t : Nat}
    {pv : FVar}
    (huniq : ∀ x ∈ net.vars, ∀ y ∈ net.vars, x ≠ y →
      ∀ ft ∈ x.terms, ∀ ft' ∈ y.terms, ft.tid ≠ ft'.tid)
    (hpv : termParent net t = some pv) :
    ∀ q, q ∈ predsIn (calcedOf net Z) (GNode.term t) →
      q = GNode.var pv.vid ∨ ∃ w ∈ Z, t ∈ writes w ∧ q = GNode.rule w := by
  intro q hq
  rcases mem_predsIn.1 hq with ⟨_, hedge⟩
  rcases mem_calcedOf_edges.1 hedge with hinit | ⟨w, hw, hewg⟩
  · rcases mem_initCalced_edges.1 hinit with ⟨a, ha, ft, hfm, he⟩
    have hq1 : q = GNode.var a.vid := congrArg Prod.fst he
    have hft : ft.tid = t := GNode.term.inj (congrArg Prod.snd he).symm
    have hapv : a = pv := termParent_unique huniq hpv
      (graphAntecedents_sub ha).1 ⟨ft, hfm, hft⟩
    rw [hapv] at hq1
    exact Or.inl hq1
  · rcases mem_ruleGraph_edges.1 hewg with ⟨t', _, he⟩ | ⟨t', ht', he⟩ |
      ⟨u, _, hpe⟩
    · exact absurd (congrArg Prod.snd he) (by simp)
    · have hq1 : q = GNode.rule w := congrArg Prod.fst he
      have ht2 : GNode.term t = GNode.term t' := congrArg Prod.snd he
      refine Or.inr ⟨w, hw, ?_, hq1⟩
      rw [GNode.term.inj ht2]
      exact ht'
    · rcases mem_parentGraph_edges.1 hpe with ⟨v, hv, ft, hfm, he⟩
      have hq1 : q = GNode.var v.vid := congrArg Prod.fst he
      have hft : ft.tid = t := GNode.term.inj (congrArg Prod.snd he).symm
      have hvpv : v = pv :=
        termParent_unique huniq hpv (termParent_mem hv) ⟨ft, hfm, hft⟩
      rw [hvpv] at hq1
      exact Or.inl hq1

theorem var_pred_term_calced {net : Network} {Z : List FRule} {t : Nat}
    {pv : FVar} (hpv : termParent net t = some pv)
    (hstar : (∃ w ∈ Z, t ∈ touched w) ∨ pv ∈ graphAntecedents net) :
    GNode.var pv.vid ∈ predsIn (calcedOf net Z) (GNode.term t) := by
  rcases termParent_hasTid hpv with ⟨ft, hfm, hft⟩
  apply mem_predsIn.2
  rcases hstar with ⟨w, hw, htw⟩ | ha
  · constructor
    · exact mem_calcedOf_nodes.2 (Or.inr ⟨w, hw, mem_ruleGraph_nodes.2
        (Or.inr (Or.inr (Or.inr ⟨t, htw,
          mem_parentGraph_nodes.2 ⟨pv, hpv, Or.inl rfl⟩⟩)))⟩)
    · exact mem_calcedOf_edges.2 (Or.inr ⟨w, hw, mem_ruleGraph_edges.2
        (Or.inr (Or.inr ⟨t, htw, mem_parentGraph_edges.2
          ⟨pv, hpv, ft, hfm, by rw [hft]⟩⟩))⟩)
  · constructor
    · exact mem_calcedOf_nodes.2 (Or.inl (mem_initCalced_nodes.2
        ⟨pv, ha, Or.inl rfl⟩))
    · exact mem_calcedOf_edges.2 (Or.inl (mem_initCalced_edges.2
        ⟨pv, ha, ft, hfm, by rw [hft]⟩))

theorem rule_pred_term_calced {net : Network} {Z : List FRule} {t : Nat}
    {w : FRule} (hw : w ∈ Z) (htw : t ∈ writes w) :
    GNode.rule w ∈ predsIn (calcedOf net Z) (GNode.term t) := by
  apply mem_predsIn.2
  constructor
  · exact mem_calcedOf_nodes.2 (Or.inr ⟨w, hw,
      rule_mem_ruleGraph_nodes.2 rfl⟩)
  · exact mem_calcedOf_edges.2 (Or.inr ⟨w, hw, mem_ruleGraph_edges.2
      (Or.inr (Or.inl ⟨t, htw, rfl⟩))⟩)

theorem preds_rule {net : Network} {r : FRule} (hr : r ∈ net.rules) :
    ∀ q, q ∈ predsIn (systemGraph net) (GNode.rule r) ↔
      ∃ t ∈ antLeaves r.ant, q = GNode.term t := by
  intro q
  constructor
  · intro hq
    rcases mem_predsIn.1 hq with ⟨_, hedge⟩
    rcases mem_systemGraph_edges.1 hedge with ⟨w, hw, hewg⟩
    rcases mem_ruleGraph_edges.1 hewg with ⟨t', ht', he⟩ | ⟨t', _, he⟩ |
      ⟨u, _, hpe⟩
    · have hq1 : q = GNode.term t' := congrArg Prod.fst he
      have hr2 : GNode.rule r = GNode.rule w := congrArg Prod.snd he
      rw [GNode.rule.inj hr2]
      exact ⟨t', ht', hq1⟩
    · exact absurd (congrArg Prod.snd he) (by simp)
    · rcases mem_parentGraph_edges.1 hpe with ⟨v, _, ft, _, he⟩
      exact absurd (congrArg Prod.snd he) (by simp)
  · rintro ⟨t, ht, rfl⟩
    apply mem_predsIn.2
    constructor
    · exact mem_systemGraph_nodes.2 ⟨r, hr, mem_ruleGraph_nodes.2
        (Or.inl ⟨t, ht, rfl⟩)⟩
    · exact mem_systemGraph_edges.2 ⟨r, hr, mem_ruleGraph_edges.2
        (Or.inl ⟨t, ht, rfl⟩)⟩

theorem canCalc_iff {net : Network} {C : Graph} {r : FRule}
    (hr : r ∈ net.rules) :
    canCalc net (systemGraph net) C r = true ↔
      ∀ t ∈ antLeaves r.ant,
        GNode.term t ∈ C.nodes ∧
        predCount (systemGraph net) (GNode.term t)
          = predCount C (GNode.term t) := by
  rw [canCalc, List.all_eq_true]
  constructor
  · intro h t ht
    have := h (GNode.term t) ((preds_rule hr (GNode.term t)).2 ⟨t, ht, rfl⟩)
    simp only [Bool.and_eq_true, decide_eq_true_eq, List.elem_iff] at this
    exact this
  · intro h q hq
    rcases (preds_rule hr q).1 hq with ⟨t, ht, rfl⟩
    simp only [Bool.and_eq_true, decide_eq_true_eq, List.elem_iff]
    exact h t ht

theorem canCalc_sound {net : Network} {Z : List FRule} {r : FRule}
    (huniq : ∀ x ∈ net.vars, ∀ y ∈ net.vars, x ≠ y →
      ∀ ft ∈ x.terms, ∀ ft' ∈ y.terms, ft.tid ≠ ft'.tid)
    (hparent : ∀ r ∈ net.rules, ∀ t ∈ touched r,
      (termParent net t).isSome = true)
    (hZ : ∀ x ∈ Z, x ∈ net.rules) (hr : r ∈ net.rules)
    (hcc : canCalc net (systemGraph net) (calcedOf net Z) r = true) :
    ∀ r' ∈ net.rules, dependsOn net r' r → r' ∈ Z := by
  intro r' hr' hdep
  rcases hdep with ⟨t, ht, hant, htw⟩
  have htouch : t ∈ touched r := List.mem_append.2 (Or.inl ht)
  rcases Option.isSome_iff_exists.1 (hparent r hr t htouch) with ⟨pv, hpv⟩
  have hcct := (canCalc_iff hr).1 hcc t ht
  have hsub : ∀ q, q ∈ predsIn (calcedOf net Z) (GNode.term t) →
      q ∈ predsIn (systemGraph net) (GNode.term t) := by
    intro q hq
    rcases preds_term_calced_sub huniq hpv q hq with rfl | ⟨w, hw, htw', rfl⟩
    · exact (preds_term_allG huniq hpv ⟨r, hr, htouch⟩ _).2 (Or.inl rfl)
    · exact (preds_term_allG huniq hpv ⟨r, hr, htouch⟩ _).2
        (Or.inr ⟨w, hZ w hw, htw', rfl⟩)
  have hiff := predsIn_mem_iff_of_count hsub hcct.2
  have hr'in : GNode.rule r' ∈ predsIn (systemGraph net) (GNode.term t) :=
    (preds_term_allG huniq hpv ⟨r, hr, htouch⟩ _).2
      (Or.inr ⟨r', hr', htw, rfl⟩)
  have hr'c := (hiff _).1 hr'in
  rcases preds_term_calced_sub huniq hpv _ hr'c with heq | ⟨w, hw, _, heq⟩
  · exact absurd heq (by simp)
  · rw [GNode.rule.inj heq]
    exact hw

theorem canCalc_ready {net : Network} {Z : List FRule} {r : FRule}
    (huniq : ∀ x ∈ net.vars, ∀ y ∈ net.vars, x ≠ y →
      ∀ ft ∈ x.terms, ∀ ft' ∈ y.terms, ft.tid ≠ ft'.tid)
    (hvid : ∀ x ∈ net.vars, ∀ y ∈ net.vars, x.vid = y.vid → x = y)
    (hparent : ∀ r ∈ net.rules, ∀ t ∈ touched r,
      (termParent net t).isSome = true)
    (hnowriteant : ∀ w ∈ net.rules, ∀ t ∈ writes w, isAntTerm net t = false)
    (hreadok : ∀ r ∈ net.rules, ∀ t ∈ antLeaves r.ant,
      isAntTerm net t = true ∨ writersOf net t ≠ [])
    (hZ : ∀ x ∈ Z, x ∈ net.rules) (hr : r ∈ net.rules)
    (hready : ∀ r' ∈ net.rules, dependsOn net r' r → r' ∈ Z) :
    canCalc net (systemGraph net) (calcedOf net Z) r = true := by
  apply (canCalc_iff hr).2
  intro t ht
  have htouch : t ∈ touched r := List.mem_append.2 (Or.inl ht)
  rcases Option.isSome_iff_exists.1 (hparent r hr t htouch) with ⟨pv, hpv⟩
  by_cases hat : isAntTerm net t = true
  · have hpvant : pv.antecedent = true := by
      simpa [isAntTerm, hpv] using hat
    have hga : pv ∈ graphAntecedents net := by
      apply mem_graphAntecedents hvid (termParent_mem hpv) hpvant
      exact mem_systemGraph_nodes.2 ⟨r, hr, mem_ruleGraph_nodes.2
        (Or.inr (Or.inr (Or.inr ⟨t, htouch,
          mem_parentGraph_nodes.2 ⟨pv, hpv, Or.inl rfl⟩⟩)))⟩
    have hnow : ∀ w ∈ net.rules, t ∉ writes w := by
      intro w hw hwt
      have hfalse := hnowriteant w hw t hwt
      rw [hfalse] at hat
      simp at hat
    have hiff : ∀ q, q ∈ predsIn (systemGraph net) (GNode.term t) ↔
        q ∈ predsIn (calcedOf net Z) (GNode.term t) := by
      intro q
      constructor
      · intro hq
        rcases (preds_term_allG huniq hpv ⟨r, hr, htouch⟩ q).1 hq with
          rfl | ⟨w, hw, htw, rfl⟩
        · exact var_pred_term_calced hpv (Or.inr hga)
        · exact absurd htw (hnow w hw)
      · intro hq
        rcases preds_term_calced_sub huniq hpv q hq with
          rfl | ⟨w, hw, htw, rfl⟩
        · exact (preds_term_allG huniq hpv ⟨r, hr, htouch⟩ _).2 (Or.inl rfl)
        · exact absurd htw (hnow w (hZ w hw))
    refine ⟨?_, predCount_eq_of_mem_iff hiff⟩
    rcases termParent_hasTid hpv with ⟨ft, hfm, hft⟩
    exact mem_calcedOf_nodes.2 (Or.inl (mem_initCalced_nodes.2
      ⟨pv, hga, Or.inr ⟨ft, hfm, by rw [hft]⟩⟩))
  · have hat' : isAntTerm net t = false := by
      cases h : isAntTerm net t
      · rfl
      · exact absurd h hat
    have hwriter : writersOf net t ≠ [] := by
      rcases hreadok r hr t ht with h | h
      · exact absurd h hat
      · exact h
    rcases hwex : writersOf net t with _ | ⟨w0, ws⟩
    · exact absurd hwex hwriter
    have hw0 : w0 ∈ net.rules ∧ t ∈ writes w0 := by
      have hm : w0 ∈ writersOf net t := by
        rw [hwex]
        exact List.mem_cons_self _ _
      rcases List.mem_filter.1 hm with ⟨hmem, hcond⟩
      refine ⟨hmem, ?_⟩
      simpa [List.elem_iff] using hcond
    have hallZ : ∀ w ∈ net.rules, t ∈ writes w → w ∈ Z := by
      intro w hw htw
      exact hready w hw ⟨t, ht, hat', htw⟩
    have hw0Z : w0 ∈ Z := hallZ w0 hw0.1 hw0.2
    have hiff : ∀ q, q ∈ predsIn (systemGraph net) (GNode.term t) ↔
        q ∈ predsIn (calcedOf net Z) (GNode.term t) := by
      intro q
      constructor
      · intro hq
        rcases (preds_term_allG huniq hpv ⟨r, hr, htouch⟩ q).1 hq with
          rfl | ⟨w, hw, htw, rfl⟩
        · exact var_pred_term_calced hpv
            (Or.inl ⟨w0, hw0Z, List.mem_append.2 (Or.inr hw0.2)⟩)
        · exact rule_pred_term_calced (hallZ w hw htw) htw
      · intro hq
        rcases preds_term_calced_sub huniq hpv q hq with
          rfl | ⟨w, hw, htw, rfl⟩
        · exact (preds_term_allG huniq hpv ⟨r, hr, htouch⟩ _).2 (Or.inl rfl)
        · exact (preds_term_allG huniq hpv ⟨r, hr, htouch⟩ _).2
            (Or.inr ⟨w, hZ w hw, htw, rfl⟩)
    refine ⟨?_, predCount_eq_of_mem_iff hiff⟩
    exact mem_calcedOf_nodes.2 (Or.inr ⟨w0, hw0Z, mem_ruleGraph_nodes.2
      (Or.inr (Or.inr (Or.inl ⟨t, hw0.2, rfl⟩)))⟩)

theorem processPass_perm (net : Network) (allG : Graph) :
    ∀ (rs : List FRule) (g : Graph),
      ((processPass net allG rs g).1
        ++ (processPass net allG rs g).2.1).Perm rs := by
  intro rs
  induction rs with
  | nil => intro g; simp [processPass]
  | cons r rs' ih =>
    intro g
    by_cases hc : canCalc net allG g r = true
    · simp only [processPass, hc, if_true, List.cons_append]
      exact (ih _).cons r
    · simp only [Bool.not_eq_true] at hc
      simp only [processPass, hc, Bool.false_eq_true, if_false]
      exact List.Perm.trans List.perm_middle ((ih g).cons r)

theorem processPass_calced (net : Network) (allG : Graph) :
    ∀ (rs : List FRule) (g : Graph),
      (processPass net allG rs g).2.2
        = (processPass net allG rs g).1.foldl
            (fun h r => composeG h (ruleGraph net r)) g := by
  intro rs
  induction rs with
  | nil => intro g; simp [processPass]
  | cons r rs' ih =>
    intro g
    by_cases hc : canCalc net allG g r = true
    · simp only [processPass, hc, if_true, List.foldl_cons]
      exact ih _
    · simp only [Bool.not_eq_true] at hc
      simp only [processPass, hc, Bool.false_eq_true, if_false]
      exact ih g

theorem soundFrom_append (net : Network) :
    ∀ (ys Y zs : List FRule),
      SoundFrom net Y ys → SoundFrom net (Y ++ ys) zs →
      SoundFrom net Y (ys ++ zs) := by
  intro ys
  induction ys with
  | nil =>
    intro Y zs _ h2
    simpa using h2
  | cons r ys' ih =>
    intro Y zs h1 h2
    rcases h1 with ⟨hhead, htail⟩
    refine ⟨hhead, ?_⟩
    apply ih (Y ++ [r]) zs htail
    have hassoc : Y ++ [r] ++ ys' = Y ++ r :: ys' := by simp
    rw [hassoc]
    exact h2

theorem soundFrom_pairwise (net : Network) :
    ∀ (order Y : List FRule),
      SoundFrom net Y order → order.Nodup →
      (∀ x ∈ order, x ∈ net.rules) → (∀ x ∈ order, x ∉ Y) →
      order.Pairwise (fun a b => ¬ dependsOn net b a) := by
  intro order
  induction order with
  | nil => intro Y _ _ _ _; exact List.Pairwise.nil
  | cons r rest ih =>
    intro Y hsf hnd hmem hdisj
    rcases hsf with ⟨hhead, htail⟩
    rcases List.nodup_cons.1 hnd with ⟨hrn, hnd'⟩
    refine List.Pairwise.cons ?_ ?_
    · intro b hb hdep
      have hbY : b ∈ Y := hhead b (hmem b (List.mem_cons_of_mem _ hb)) hdep
      exact hdisj b (List.mem_cons_of_mem _ hb) hbY
    · apply ih (Y ++ [r]) htail hnd'
        (fun x hx => hmem x (List.mem_cons_of_mem _ hx))
      intro x hx hxY
      rcases List.mem_append.1 hxY with h | h
      · exact hdisj x (List.mem_cons_of_mem _ hx) h
      · rcases List.mem_singleton.1 h with rfl
        exact hrn hx

theorem min_of_pairwise (net : Network) :
    ∀ (topo : List FRule),
      topo.Pairwise (fun a b => ¬ dependsOn net b a) →
      ∀ (rs : List FRule), (∀ x ∈ rs, x ∈ topo) → rs ≠ [] →
      (∀ x ∈ rs, ¬ dependsOn net x x) →
      ∃ r ∈ rs, ∀ r' ∈ rs, ¬ dependsOn net r' r := by
  intro topo
  induction topo with
  | nil =>
    intro _ rs hsub hne _
    rcases rs with _ | ⟨x, _⟩
    · exact absurd rfl hne
    · exact absurd (hsub x (List.mem_cons_self _ _)) (by simp)
  | cons a topo' ih =>
    intro hpw rs hsub hne hself
    rcases List.pairwise_cons.1 hpw with ⟨hhead, hpw'⟩
    by_cases ha : a ∈ rs
    · refine ⟨a, ha, ?_⟩
      intro r' hr'
      cases List.mem_cons.1 (hsub r' hr') with
      | inl h => rw [h]; exact hself a ha
      | inr h => exact hhead r' h
    · apply ih hpw' rs ?_ hne hself
      intro x hx
      cases List.mem_cons.1 (hsub x hx) with
      | inl h => exact absurd (h ▸ hx) ha
      | inr h => exact h

theorem processPass_sound {net : Network}
    (huniq : ∀ x ∈ net.vars, ∀ y ∈ net.vars, x ≠ y →
      ∀ ft ∈ x.terms, ∀ ft' ∈ y.terms, ft.tid ≠ ft'.tid)
    (hparent : ∀ r ∈ net.rules, ∀ t ∈ touched r,
      (termParent net t).isSome = true) :
    ∀ (rs Y : List FRule),
      (∀ x ∈ rs, x ∈ net.rules) → (∀ x ∈ Y, x ∈ net.rules) →
      SoundFrom net Y
        (processPass net (systemGraph net) rs (calcedOf net Y)).1 := by
  intro rs
  induction rs with
  | nil =>
    intro Y _ _
    simp only [processPass]
    exact trivial
  | cons r rs' ih =>
    intro Y hrs hY
    by_cases hc : canCalc net (systemGraph net) (calcedOf net Y) r = true
    · simp only [processPass, hc, if_true]
      refine ⟨?_, ?_⟩
      · exact canCalc_sound huniq hparent hY
          (hrs r (List.mem_cons_self _ _)) hc
      · have hcz : composeG (calcedOf net Y) (ruleGraph net r)
            = calcedOf net (Y ++ [r]) := (calcedOf_concat net Y r).symm
        rw [hcz]
        apply ih (Y ++ [r]) (fun x hx => hrs x (List.mem_cons_of_mem _ hx))
        intro x hx
        rcases List.mem_append.1 hx with h | h
        · exact hY x h
        · rw [List.mem_singleton.1 h]
          exact hrs r (List.mem_cons_self _ _)
    · simp only [Bool.not_eq_true] at hc
      simp only [processPass, hc, Bool.false_eq_true, if_false]
      exact ih Y (fun x hx => hrs x (List.mem_cons_of_mem _ hx)) hY

theorem processPass_progress {net : Network}
    (huniq : ∀ x ∈ net.vars, ∀ y ∈ net.vars, x ≠ y →
      ∀ ft ∈ x.terms, ∀ ft' ∈ y.terms, ft.tid ≠ ft'.tid)
    (hvid : ∀ x ∈ net.vars, ∀ y ∈ net.vars, x.vid = y.vid → x = y)
    (hparent : ∀ r ∈ net.rules, ∀ t ∈ touched r,
      (termParent net t).isSome = true)
    (hnowriteant : ∀ w ∈ net.rules, ∀ t ∈ writes w, isAntTerm net t = false)
    (hreadok : ∀ r ∈ net.rules, ∀ t ∈ antLeaves r.ant,
      isAntTerm net t = true ∨ writersOf net t ≠ []) :
    ∀ (rs Y : List FRule),
      (∀ x ∈ rs, x ∈ net.rules) → (∀ x ∈ Y, x ∈ net.rules) →
      (∃ r ∈ rs, ∀ r' ∈ net.rules, dependsOn net r' r → r' ∈ Y) →
      (processPass net (systemGraph net) rs (calcedOf net Y)).1 ≠ [] := by
  intro rs
  induction rs with
  | nil =>
    intro Y _ _ hex
    rcases hex with ⟨r, hr, _⟩
    exact absurd hr (by simp)
  | cons r rs' ih =>
    intro Y hrs hY hex
    by_cases hc : canCalc net (systemGraph net) (calcedOf net Y) r = true
    · simp only [processPass, hc, if_true]
      exact List.cons_ne_nil _ _
    · rcases hex with ⟨r0, hr0m, hr0ready⟩
      cases List.mem_cons.1 hr0m with
      | inl h =>
        exfalso
        subst h
        exact hc (canCalc_ready huniq hvid hparent hnowriteant hreadok hY
          (hrs r0 (List.mem_cons_self _ _)) hr0ready)
      | inr h =>
        simp only [Bool.not_eq_true] at hc
        simp only [processPass, hc, Bool.false_eq_true, if_false]
        exact ih Y (fun x hx => hrs x (List.mem_cons_of_mem _ hx)) hY
          ⟨r0, h, hr0ready⟩

theorem calcedOf_append (net : Network) (Y Z : List FRule) :
    calcedOf net (Y ++ Z)
      = Z.foldl (fun g r => composeG g (ruleGraph net r)) (calcedOf net Y) := by
  rw [calcedOf, List.foldl_append]
  rfl

theorem processRules_sound_ok {net : Network}
    (huniq : ∀ x ∈ net.vars, ∀ y ∈ net.vars, x ≠ y →
      ∀ ft ∈ x.terms, ∀ ft' ∈ y.terms, ft.tid ≠ ft'.tid)
    (hvid : ∀ x ∈ net.vars, ∀ y ∈ net.vars, x.vid = y.vid → x = y)
    (hparent : ∀ r ∈ net.rules, ∀ t ∈ touched r,
      (termParent net t).isSome = true)
    (hnowriteant : ∀ w ∈ net.rules, ∀ t ∈ writes w, isAntTerm net t = false)
    (hreadok : ∀ r ∈ net.rules, ∀ t ∈ antLeaves r.ant,
      isAntTerm net t = true ∨ writersOf net t ≠ [])
    (hself : ∀ r ∈ net.rules, ¬ dependsOn net r r)
    {topo : List FRule} (htopo : topo.Perm net.rules)
    (hpw : topo.Pairwise (fun a b => ¬ dependsOn net b a)) :
    ∀ (n : Nat) (R Y : List FRule), R.length < n →
      (∀ x ∈ R, x ∈ net.rules) → (∀ x ∈ Y, x ∈ net.rules) →
      (∀ x ∈ net.rules, x ∈ Y ∨ x ∈ R) →
      ∃ order, processRules net (systemGraph net) n R (calcedOf net Y)
          = .ok order ∧ order.Perm R ∧ SoundFrom net Y order := by
  intro n
  induction n with
  | zero =>
    intro R Y hlen _ _ _
    exact absurd hlen (Nat.not_lt_zero _)
  | succ n ihn =>
    intro R Y hlen hR hY hcover
    rcases hpp : processPass net (systemGraph net) R (calcedOf net Y)
      with ⟨ys, sk, C2⟩
    have hperm : (ys ++ sk).Perm R := by
      have := processPass_perm net (systemGraph net) R (calcedOf net Y)
      rw [hpp] at this
      exact this
    have hsound : SoundFrom net Y ys := by
      have := processPass_sound huniq hparent R Y hR hY
      rw [hpp] at this
      exact this
    have hcalced : C2 = calcedOf net (Y ++ ys) := by
      have h := processPass_calced net (systemGraph net) R (calcedOf net Y)
      rw [hpp] at h
      simp only at h
      rw [h, calcedOf_append]
    have hys_sub : ∀ x ∈ ys, x ∈ R := fun x hx =>
      hperm.mem_iff.1 (List.mem_append.2 (Or.inl hx))
    have hsk_sub : ∀ x ∈ sk, x ∈ R := fun x hx =>
      hperm.mem_iff.1 (List.mem_append.2 (Or.inr hx))
    simp only [processRules, hpp]
    by_cases hskE : sk.isEmpty = true
    · have hsknil : sk = [] := by
        cases sk
        · rfl
        · simp at hskE
      simp only [hskE, if_true]
      refine ⟨ys, rfl, ?_, hsound⟩
      rw [hsknil] at hperm
      simpa using hperm
    · have hsknil : sk ≠ [] := by
        intro h
        rw [h] at hskE
        exact hskE rfl
      have hysne : ys ≠ [] := by
        have hRne : R ≠ [] := by
          intro h
          apply hsknil
          have hl := hperm.length_eq
          rw [h, List.length_append] at hl
          simp at hl
          exact hl.2
        have hready : ∃ r ∈ R,
            ∀ r' ∈ net.rules, dependsOn net r' r → r' ∈ Y := by
          rcases min_of_pairwise net topo hpw R
            (fun x hx => htopo.mem_iff.2 (hR x hx)) hRne
            (fun x hx => hself x (hR x hx)) with ⟨r, hrR, hrmin⟩
          refine ⟨r, hrR, ?_⟩
          intro r' hr' hdep
          rcases hcover r' hr' with h | h
          · exact h
          · exact absurd hdep (hrmin r' h)
        have := processPass_progress huniq hvid hparent hnowriteant hreadok
          R Y hR hY hready
        rw [hpp] at this
        exact this
      have hlt : sk.length < R.length := by
        have hl := hperm.length_eq
        rw [List.length_append] at hl
        have hpos : 0 < ys.length := List.length_pos.2 hysne
        omega
      have hne2 : ¬ (sk.length = R.length) := by omega
      rw [if_neg hskE, if_neg hne2]
      have hcover2 : ∀ x ∈ net.rules, x ∈ Y ++ ys ∨ x ∈ sk := by
        intro x hx
        rcases hcover x hx with h | h
        · exact Or.inl (List.mem_append.2 (Or.inl h))
        · rcases List.mem_append.1 (hperm.mem_iff.2 h) with h2 | h2
          · exact Or.inl (List.mem_append.2 (Or.inr h2))
          · exact Or.inr h2
      have hYys : ∀ x ∈ Y ++ ys, x ∈ net.rules := by
        intro x hx
        rcases List.mem_append.1 hx with h | h
        · exact hY x h
        · exact hR x (hys_sub x h)
      rcases ihn sk (Y ++ ys) (by omega)
        (fun x hx => hR x (hsk_sub x hx)) hYys hcover2
        with ⟨zs, hzs, hzsperm, hzssound⟩
      rw [hcalced, hzs]
      refine ⟨ys ++ zs, rfl, ?_, ?_⟩
      · exact (List.Perm.append_left ys hzsperm).trans hperm
      · exact soundFrom_append net ys Y zs hsound hzssound

/-- C1 (corrected): the claim's conclusion (a) is false as stated, but the
order resolver is still totally correct in this amended sense: for every
structurally valid network (distinct rules, every referenced term owned by
exactly one variable, rules write only non-Antecedent terms, every
antecedent-read term either Antecedent-owned or written by some rule) whose
dependency graph restricted to non-antecedent terms and rules is acyclic,
iterating the rule evaluation order succeeds, yields every rule exactly
once, and yields each rule only after every rule of the network that writes
to a term read by its antecedent (conclusion (b) of the claim, equivalently:
the order is topological for the restricted dependency relation). -/
theorem claim1_order_amended (net : Network)
    (hnd : net.rules.Nodup)
    (huniq : ∀ x ∈ net.vars, ∀ y ∈ net.vars, x ≠ y →
      ∀ ft ∈ x.terms, ∀ ft' ∈ y.terms, ft.tid ≠ ft'.tid)
    (hvid : ∀ x ∈ net.vars, ∀ y ∈ net.vars, x.vid = y.vid → x = y)
    (hparent : ∀ r ∈ net.rules, ∀ t ∈ touched r,
      (termParent net t).isSome = true)
    (hnowriteant : ∀ w ∈ net.rules, ∀ t ∈ writes w, isAntTerm net t = false)
    (hreadok : ∀ r ∈ net.rules, ∀ t ∈ antLeaves r.ant,
      isAntTerm net t = true ∨ writersOf net t ≠ [])
    (hacy : RestrictedAcyclic net) :
    ∃ order, ruleOrder net = .ok order ∧ order.Perm net.rules ∧
      order.Pairwise (fun a b => ¬ dependsOn net b a) := by
  rcases hacy with ⟨hself, topo, htopo, hpw⟩
  have hmain := processRules_sound_ok huniq hvid hparent hnowriteant hreadok
    hself htopo hpw ((allRules net).length + 1) (allRules net) []
    (by omega) (fun x hx => mem_allRules.1 hx)
    (by intro x hx; simp at hx)
    (fun x hx => Or.inr (mem_allRules.2 hx))
  rcases hmain with ⟨order, hok, hperm, hsound⟩
  have hanodup := nodup_allRules net
  refine ⟨order, hok, ?_, ?_⟩
  · have hperm2 : (allRules net).Perm net.rules :=
      (List.perm_ext_iff_of_nodup hanodup hnd).2 (fun x => mem_allRules)
    exact hperm.trans hperm2
  · apply soundFrom_pairwise net order [] hsound
    · exact hperm.nodup_iff.2 hanodup
    · intro x hx
      exact mem_allRules.1 (hperm.mem_iff.1 hx)
    · intro x _
      simp

/-- C1 counterexample: in the network c1xNet the restricted dependency graph
is acyclic (no rule depends on any rule), the resolver yields rule A then
rule B, and rule B reads term 4 — a term of a non-Antecedent variable that
NO rule of the network writes, so term 4 was not written by the one rule
yielded before B; conclusion (a) of the claim fails.  (Term 4 became
"calculable" merely because rule A touches its owning variable, which pulls
the variable's whole star into the calculated graph.) -/
theorem claim1_counterexample :
    RestrictedAcyclic c1xNet ∧
    ruleOrder c1xNet = .ok [c1xRA, c1xRB] ∧
    4 ∈ antLeaves c1xRB.ant ∧ isAntTerm c1xNet 4 = false ∧
    (∀ r' ∈ c1xNet.rules, 4 ∉ writes r') := by
  refine ⟨⟨by decide, [c1xRA, c1xRB], List.Perm.refl _, ?_⟩, ?_, ?_, ?_, ?_⟩
  · decide
  · decide
  · decide
  · decide
  · decide

/-- Witness for the amended C1 at a two-rule chain added in
dependency-breaking order. -/
theorem claim1_order_amended_witness :
    ∃ order, ruleOrder c1wNet = .ok order ∧ order.Perm c1wNet.rules ∧
      order.Pairwise (fun a b => ¬ dependsOn c1wNet b a) :=
  claim1_order_amended c1wNet (by decide) (by decide) (by decide) (by decide)
    (by decide) (by decide)
    ⟨by decide, [c1wR1, c1wR2], List.Perm.swap c1wR2 c1wR1 [], by decide⟩

end SkFuzzy
